import Mathlib

/-!
Verification of the quantum-simulation repository (state-vector simulator
with Deutsch-Jozsa, Grover and Bernstein-Vazirani drivers).

Modelling conventions.
The source performs float64 arithmetic via numpy.  Every number that the
simulator ever produces lies in the ring Q2 = ℚ + ℚ·√2 (Hadamard entries
are signed powers of 1/√2 = √2/2; oracle and diffusion entries are
rational), so floating-point values are modelled by exact arithmetic in
Q2, the standard idealization of the real computation.  The two literal
float constants consumed by the Grover iteration count (numpy.pi and
math.sqrt(2 ** n)) are modelled by the exact rational values of the
corresponding IEEE-754 doubles.  Complex numpy values become pairs of Q2
(real and imaginary part).  Python assert failures become Option.none.
-/

/-- The ring ℚ + ℚ·√2: the value is a + b·√2.  Exact model of the real
numbers arising in the simulator. -/
structure Q2 where
  a : ℚ
  b : ℚ
deriving DecidableEq, Repr

namespace Q2

theorem ext2 {x y : Q2} (ha : x.a = y.a) (hb : x.b = y.b) : x = y := by
  cases x; cases y; cases ha; cases hb; rfl

instance : Zero Q2 := ⟨⟨0, 0⟩⟩
instance : One Q2 := ⟨⟨1, 0⟩⟩
instance : Add Q2 := ⟨fun x y => ⟨x.a + y.a, x.b + y.b⟩⟩
instance : Neg Q2 := ⟨fun x => ⟨-x.a, -x.b⟩⟩
instance : Mul Q2 := ⟨fun x y => ⟨x.a * y.a + 2 * (x.b * y.b), x.a * y.b + x.b * y.a⟩⟩

@[simp] theorem zero_a : (0 : Q2).a = 0 := rfl
@[simp] theorem zero_b : (0 : Q2).b = 0 := rfl
@[simp] theorem one_a : (1 : Q2).a = 1 := rfl
@[simp] theorem one_b : (1 : Q2).b = 0 := rfl
@[simp] theorem add_a (x y : Q2) : (x + y).a = x.a + y.a := rfl
@[simp] theorem add_b (x y : Q2) : (x + y).b = x.b + y.b := rfl
@[simp] theorem neg_a (x : Q2) : (-x).a = -x.a := rfl
@[simp] theorem neg_b (x : Q2) : (-x).b = -x.b := rfl
@[simp] theorem mul_a (x y : Q2) : (x * y).a = x.a * y.a + 2 * (x.b * y.b) := rfl
@[simp] theorem mul_b (x y : Q2) : (x * y).b = x.a * y.b + x.b * y.a := rfl

instance : CommRing Q2 where
  add_assoc x y z := by apply ext2 <;> simp <;> ring
  zero_add x := by apply ext2 <;> simp
  add_zero x := by apply ext2 <;> simp
  add_comm x y := by apply ext2 <;> simp <;> ring
  mul_assoc x y z := by apply ext2 <;> simp <;> ring
  one_mul x := by apply ext2 <;> simp
  mul_one x := by apply ext2 <;> simp
  zero_mul x := by apply ext2 <;> simp
  mul_zero x := by apply ext2 <;> simp
  left_distrib x y z := by apply ext2 <;> simp <;> ring
  right_distrib x y z := by apply ext2 <;> simp <;> ring
  mul_comm x y := by apply ext2 <;> simp <;> ring
  neg_add_cancel x := by apply ext2 <;> simp
  nsmul := nsmulRec
  zsmul := zsmulRec

@[simp] theorem sub_a (x y : Q2) : (x - y).a = x.a - y.a := by
  rw [sub_eq_add_neg, sub_eq_add_neg]; rfl

@[simp] theorem sub_b (x y : Q2) : (x - y).b = x.b - y.b := by
  rw [sub_eq_add_neg, sub_eq_add_neg]; rfl

/-- Embed ℚ into Q2. -/
def ofRat (q : ℚ) : Q2 := ⟨q, 0⟩

@[simp] theorem ofRat_a (q : ℚ) : (ofRat q).a = q := rfl
@[simp] theorem ofRat_b (q : ℚ) : (ofRat q).b = 0 := rfl

/-- ℚ → Q2 as a ring homomorphism. -/
def ratHom : ℚ →+* Q2 where
  toFun := ofRat
  map_one' := rfl
  map_mul' x y := by apply ext2 <;> simp
  map_zero' := rfl
  map_add' x y := by apply ext2 <;> simp

@[simp] theorem ratHom_apply (q : ℚ) : ratHom q = ofRat q := rfl

theorem ofRat_injective : Function.Injective ofRat := by
  intro x y h
  simpa [ofRat, Q2.mk.injEq] using h

/-- Decidable sign of a + b·√2 (true iff the real value is nonnegative).
When a and b have opposite signs the comparison squares both sides. -/
def nonneg (x : Q2) : Bool :=
  if 0 ≤ x.a then
    if 0 ≤ x.b then true
    else decide (2 * x.b ^ 2 ≤ x.a ^ 2)
  else
    if 0 ≤ x.b then decide (x.a ^ 2 ≤ 2 * x.b ^ 2)
    else false

/-- Less-or-equal test on Q2 values, modelling float comparison. -/
def ble (x y : Q2) : Bool := nonneg (y - x)

/-- Strict less-than test on Q2 values, modelling float comparison. -/
def blt (x y : Q2) : Bool := !(ble y x)

/-- Absolute value on Q2, modelling numpy.abs. -/
def absQ (x : Q2) : Q2 := if nonneg x then x else -x

@[simp] theorem nonneg_zero : nonneg 0 = true := by simp [nonneg]

theorem nonneg_neg_of_false {x : Q2} (h : nonneg x = false) : nonneg (-x) = true := by
  unfold nonneg at h ⊢
  simp only [neg_a, neg_b, neg_sq] at h ⊢
  by_cases ha : 0 ≤ x.a <;> by_cases hb : 0 ≤ x.b
  · rw [if_pos ha, if_pos hb] at h; exact absurd h (by simp)
  · rw [if_pos ha, if_neg hb] at h
    have h2 : x.a ^ 2 < 2 * x.b ^ 2 := lt_of_not_le (of_decide_eq_false h)
    have hb' : (0:ℚ) ≤ -x.b := by linarith [not_le.mp hb]
    by_cases ha0 : 0 ≤ -x.a
    · rw [if_pos ha0, if_pos hb']
    · rw [if_neg ha0, if_pos hb']
      exact decide_eq_true (le_of_lt h2)
  · rw [if_neg ha, if_pos hb] at h
    have h2 : 2 * x.b ^ 2 < x.a ^ 2 := lt_of_not_le (of_decide_eq_false h)
    have ha' : (0:ℚ) ≤ -x.a := by linarith [not_le.mp ha]
    rw [if_pos ha']
    by_cases hb0 : 0 ≤ -x.b
    · rw [if_pos hb0]
    · rw [if_neg hb0]
      exact decide_eq_true (le_of_lt h2)
  · have ha' : (0:ℚ) ≤ -x.a := by linarith [not_le.mp ha]
    have hb' : (0:ℚ) ≤ -x.b := by linarith [not_le.mp hb]
    rw [if_pos ha', if_pos hb']

theorem nonneg_total (x : Q2) : nonneg x = true ∨ nonneg (-x) = true := by
  cases h : nonneg x
  · exact Or.inr (nonneg_neg_of_false h)
  · exact Or.inl rfl

theorem blt_irrefl (x : Q2) : blt x x = false := by
  simp [blt, ble]

theorem blt_asymm {x y : Q2} (h : blt x y = true) : blt y x = false := by
  simp only [blt, ble, Bool.not_eq_true'] at h
  have h2 := nonneg_neg_of_false h
  rw [neg_sub] at h2
  simp [blt, ble, h2]

/-- On rational values (b-component zero) the Q2 comparison is the ℚ
comparison. -/
theorem nonneg_ofRat (q : ℚ) : nonneg (ofRat q) = decide (0 ≤ q) := by
  by_cases h : 0 ≤ q
  · simp [nonneg, ofRat, h]
  · have h1 : q < 0 := not_le.mp h
    have h2 : ¬ q ^ 2 ≤ 2 * (0:ℚ) ^ 2 := by nlinarith
    simp [nonneg, ofRat, h, h2]
    nlinarith

theorem sub_ofRat (x y : ℚ) : ofRat x - ofRat y = ofRat (x - y) := by
  apply ext2 <;> simp

theorem ble_ofRat (x y : ℚ) : ble (ofRat x) (ofRat y) = decide (x ≤ y) := by
  rw [ble, sub_ofRat, nonneg_ofRat]
  by_cases h : x ≤ y <;> simp [h, sub_nonneg]

theorem blt_ofRat (x y : ℚ) : blt (ofRat x) (ofRat y) = decide (x < y) := by
  rw [blt, ble_ofRat]
  by_cases h : x < y <;> simp [h, not_le.mpr, le_of_not_lt, not_lt]

end Q2

/-- Complex numbers with Q2 components, modelling numpy complex values
reachable in the simulator. -/
structure Cplx where
  re : Q2
  im : Q2
deriving DecidableEq, Repr

namespace Cplx

theorem extC {x y : Cplx} (hr : x.re = y.re) (hi : x.im = y.im) : x = y := by
  cases x; cases y; cases hr; cases hi; rfl

instance : Zero Cplx := ⟨⟨0, 0⟩⟩
instance : One Cplx := ⟨⟨1, 0⟩⟩
instance : Add Cplx := ⟨fun x y => ⟨x.re + y.re, x.im + y.im⟩⟩
instance : Neg Cplx := ⟨fun x => ⟨-x.re, -x.im⟩⟩
instance : Mul Cplx := ⟨fun x y => ⟨x.re * y.re - x.im * y.im, x.re * y.im + x.im * y.re⟩⟩

@[simp] theorem zero_re : (0 : Cplx).re = 0 := rfl
@[simp] theorem zero_im : (0 : Cplx).im = 0 := rfl
@[simp] theorem one_re : (1 : Cplx).re = 1 := rfl
@[simp] theorem one_im : (1 : Cplx).im = 0 := rfl
@[simp] theorem add_re (x y : Cplx) : (x + y).re = x.re + y.re := rfl
@[simp] theorem add_im (x y : Cplx) : (x + y).im = x.im + y.im := rfl
@[simp] theorem neg_re (x : Cplx) : (-x).re = -x.re := rfl
@[simp] theorem neg_im (x : Cplx) : (-x).im = -x.im := rfl
@[simp] theorem mul_re (x y : Cplx) : (x * y).re = x.re * y.re - x.im * y.im := rfl
@[simp] theorem mul_im (x y : Cplx) : (x * y).im = x.re * y.im + x.im * y.re := rfl

instance : CommRing Cplx where
  add_assoc x y z := by apply extC <;> simp <;> ring
  zero_add x := by apply extC <;> simp
  add_zero x := by apply extC <;> simp
  add_comm x y := by apply extC <;> simp <;> ring
  mul_assoc x y z := by apply extC <;> simp <;> ring
  one_mul x := by apply extC <;> simp
  mul_one x := by apply extC <;> simp
  left_distrib x y z := by apply extC <;> simp <;> ring
  right_distrib x y z := by apply extC <;> simp <;> ring
  zero_mul x := by apply extC <;> simp
  mul_zero x := by apply extC <;> simp
  mul_comm x y := by apply extC <;> simp <;> ring
  neg_add_cancel x := by apply extC <;> simp
  nsmul := nsmulRec
  zsmul := zsmulRec

@[simp] theorem sub_re (x y : Cplx) : (x - y).re = x.re - y.re := by
  rw [sub_eq_add_neg, sub_eq_add_neg]; rfl

@[simp] theorem sub_im (x y : Cplx) : (x - y).im = x.im - y.im := by
  rw [sub_eq_add_neg, sub_eq_add_neg]; rfl

/-- Embed Q2 into Cplx (real axis). -/
def ofQ2 (x : Q2) : Cplx := ⟨x, 0⟩

@[simp] theorem ofQ2_re (x : Q2) : (ofQ2 x).re = x := rfl
@[simp] theorem ofQ2_im (x : Q2) : (ofQ2 x).im = 0 := rfl

/-- Q2 → Cplx as a ring homomorphism. -/
def q2Hom : Q2 →+* Cplx where
  toFun := ofQ2
  map_one' := rfl
  map_mul' x y := by apply extC <;> simp
  map_zero' := rfl
  map_add' x y := by apply extC <;> simp

@[simp] theorem q2Hom_apply (x : Q2) : q2Hom x = ofQ2 x := rfl

theorem ofQ2_injective : Function.Injective ofQ2 := by
  intro x y h
  simpa [ofQ2, Cplx.mk.injEq] using h

/-- Multiplication of a complex value by a real (float) scalar, as numpy
performs it when a float matrix is applied to a complex vector. -/
def smulQ2 (r : Q2) (z : Cplx) : Cplx := ⟨r * z.re, r * z.im⟩

@[simp] theorem smulQ2_re (r : Q2) (z : Cplx) : (smulQ2 r z).re = r * z.re := rfl
@[simp] theorem smulQ2_im (r : Q2) (z : Cplx) : (smulQ2 r z).im = r * z.im := rfl

theorem smulQ2_eq_mul (r : Q2) (z : Cplx) : smulQ2 r z = ofQ2 r * z := by
  apply extC <;> simp

@[simp] theorem smulQ2_zero (r : Q2) : smulQ2 r 0 = 0 := by
  apply extC <;> simp

@[simp] theorem zero_smulQ2 (z : Cplx) : smulQ2 0 z = 0 := by
  apply extC <;> simp

theorem smulQ2_sum (T : Finset ℕ) (f : ℕ → Cplx) (c : Q2) :
    smulQ2 c (∑ j in T, f j) = ∑ j in T, smulQ2 c (f j) := by
  simp [smulQ2_eq_mul, Finset.mul_sum]

end Cplx

/-! Bit-level helpers: population count and lemmas about bitwise AND / XOR
used to analyse the Hadamard transform. -/

/-- Number of 1 bits, computed with explicit fuel so that the definition
is structurally recursive (hence kernel-reducible on concrete inputs). -/
def popcountAux : ℕ → ℕ → ℕ
  | 0, _ => 0
  | fuel + 1, k => if k = 0 then 0 else k % 2 + popcountAux fuel (k / 2)

/-- Number of 1 bits in the binary representation of a natural number. -/
def popcount (k : ℕ) : ℕ := popcountAux k k

theorem popcountAux_congr (k : ℕ) : ∀ f1 f2, k ≤ f1 → k ≤ f2 →
    popcountAux f1 k = popcountAux f2 k := by
  induction k using Nat.strong_induction_on with
  | _ k ih =>
    intro f1 f2 h1 h2
    match f1, f2 with
    | 0, 0 => rfl
    | 0, f2 + 1 =>
      have hk : k = 0 := by omega
      subst hk; simp [popcountAux]
    | f1 + 1, 0 =>
      have hk : k = 0 := by omega
      subst hk; simp [popcountAux]
    | f1 + 1, f2 + 1 =>
      by_cases h : k = 0
      · subst h; simp [popcountAux]
      · simp only [popcountAux, if_neg h]
        rw [ih (k / 2) (by omega) f1 f2 (by omega) (by omega)]

@[simp] theorem popcount_zero : popcount 0 = 0 := rfl

theorem popcount_rec {k : ℕ} (h : k ≠ 0) : popcount k = k % 2 + popcount (k / 2) := by
  rw [popcount, popcount]
  cases k with
  | zero => exact absurd rfl h
  | succ m =>
    simp only [popcountAux, if_neg h]
    rw [popcountAux_congr (Nat.succ m / 2) m (Nat.succ m / 2) (by omega) (by omega)]

theorem popcount_two_mul_add (x c : ℕ) (hc : c < 2) :
    popcount (2 * x + c) = c + popcount x := by
  by_cases h : 2 * x + c = 0
  · have hx : x = 0 := by omega
    have hc0 : c = 0 := by omega
    subst hx; subst hc0; simp
  · rw [popcount_rec h]
    have e1 : (2 * x + c) % 2 = c := by omega
    have e2 : (2 * x + c) / 2 = x := by omega
    rw [e1, e2]

theorem mod_two_mul_mod_two_lt_two (a b : ℕ) : a % 2 * (b % 2) < 2 := by
  rcases Nat.mod_two_eq_zero_or_one a with h | h <;>
    rcases Nat.mod_two_eq_zero_or_one b with h2 | h2 <;> simp [h, h2]

theorem land_two_mul_add (a b : ℕ) :
    a &&& b = 2 * (a / 2 &&& b / 2) + a % 2 * (b % 2) := by
  have hc := mod_two_mul_mod_two_lt_two a b
  apply Nat.eq_of_testBit_eq
  intro i
  cases i with
  | zero =>
    rw [Nat.testBit_land, Nat.testBit_zero, Nat.testBit_zero, Nat.testBit_zero]
    have h2 : (2 * (a / 2 &&& b / 2) + a % 2 * (b % 2)) % 2 = a % 2 * (b % 2) := by omega
    rw [h2]
    rcases Nat.mod_two_eq_zero_or_one a with h | h <;>
      rcases Nat.mod_two_eq_zero_or_one b with h3 | h3 <;> simp [h, h3]
  | succ i =>
    rw [Nat.testBit_land, Nat.testBit_succ, Nat.testBit_succ, Nat.testBit_succ,
      ← Nat.testBit_land]
    congr 1
    omega

theorem xor_two_mul_add (a b : ℕ) :
    a ^^^ b = 2 * (a / 2 ^^^ b / 2) + (a % 2 + b % 2) % 2 := by
  have hc : (a % 2 + b % 2) % 2 < 2 := by omega
  apply Nat.eq_of_testBit_eq
  intro i
  cases i with
  | zero =>
    rw [Nat.testBit_xor, Nat.testBit_zero, Nat.testBit_zero, Nat.testBit_zero]
    have h2 : (2 * (a / 2 ^^^ b / 2) + (a % 2 + b % 2) % 2) % 2 = (a % 2 + b % 2) % 2 := by
      omega
    rw [h2]
    rcases Nat.mod_two_eq_zero_or_one a with h | h <;>
      rcases Nat.mod_two_eq_zero_or_one b with h3 | h3 <;> simp [h, h3]
  | succ i =>
    rw [Nat.testBit_xor, Nat.testBit_succ, Nat.testBit_succ, Nat.testBit_succ,
      ← Nat.testBit_xor]
    congr 1
    omega

theorem land_le_left (a : ℕ) : ∀ b, a &&& b ≤ a := by
  induction a using Nat.strong_induction_on with
  | _ a ih =>
    intro b
    by_cases h : a = 0
    · subst h; simp
    · rw [land_two_mul_add]
      have h1 := ih (a / 2) (by omega) (b / 2)
      have h2 : a % 2 * (b % 2) ≤ a % 2 := by
        rcases Nat.mod_two_eq_zero_or_one b with h3 | h3 <;> simp [h3]
      omega

theorem land_lt_two_pow (a b m : ℕ) (ha : a < 2 ^ m) : a &&& b < 2 ^ m :=
  lt_of_le_of_lt (land_le_left a b) ha

theorem land_high_split (m : ℕ) : ∀ ah al bh bl, al < 2 ^ m → bl < 2 ^ m →
    (ah * 2 ^ m + al) &&& (bh * 2 ^ m + bl) = (ah &&& bh) * 2 ^ m + (al &&& bl) := by
  induction m with
  | zero =>
    intro ah al bh bl hal hbl
    simp only [pow_zero] at hal hbl ⊢
    interval_cases al
    interval_cases bl
    simp
  | succ m ih =>
    intro ah al bh bl hal hbl
    have hq : (2:ℕ) ^ (m + 1) = 2 * 2 ^ m := by ring
    have ea : ah * 2 ^ (m+1) + al = 2 * (ah * 2 ^ m) + al := by rw [hq]; ring
    have eb : bh * 2 ^ (m+1) + bl = 2 * (bh * 2 ^ m) + bl := by rw [hq]; ring
    rw [ea, eb, land_two_mul_add (2 * (ah * 2 ^ m) + al) (2 * (bh * 2 ^ m) + bl)]
    have e1 : (2 * (ah * 2 ^ m) + al) / 2 = ah * 2 ^ m + al / 2 := by omega
    have e2 : (2 * (bh * 2 ^ m) + bl) / 2 = bh * 2 ^ m + bl / 2 := by omega
    have e3 : (2 * (ah * 2 ^ m) + al) % 2 = al % 2 := by omega
    have e4 : (2 * (bh * 2 ^ m) + bl) % 2 = bl % 2 := by omega
    rw [e1, e2, e3, e4, ih ah (al / 2) bh (bl / 2) (by omega) (by omega),
      land_two_mul_add al bl, hq]
    ring

theorem land_low (th tl j m : ℕ) (htl : tl < 2 ^ m) (hj : j < 2 ^ m) :
    (th * 2 ^ m + tl) &&& j = tl &&& j := by
  have h := land_high_split m th tl 0 j htl hj
  simpa using h

theorem popcount_mul_add (m : ℕ) : ∀ x y, y < 2 ^ m →
    popcount (x * 2 ^ m + y) = popcount x + popcount y := by
  induction m with
  | zero =>
    intro x y hy
    simp only [pow_zero] at hy
    interval_cases y
    simp
  | succ m ih =>
    intro x y hy
    have hq : (2:ℕ) ^ (m + 1) = 2 * 2 ^ m := by ring
    have h1 : 2 * (y / 2) + y % 2 = y := by omega
    have e0 : x * 2 ^ (m+1) + y = 2 * (x * 2 ^ m + y / 2) + y % 2 := by
      calc x * 2 ^ (m+1) + y = 2 * (x * 2 ^ m) + (2 * (y / 2) + y % 2) := by
            rw [h1, hq]; ring
        _ = 2 * (x * 2 ^ m + y / 2) + y % 2 := by ring
    rw [e0, popcount_two_mul_add _ _ (by omega),
      ih x (y / 2) (by rw [hq] at hy; omega)]
    by_cases h : y = 0
    · subst h; simp
    · have hy' : popcount y = y % 2 + popcount (y / 2) := popcount_rec h
      omega

/-! The Hadamard transform and the character function behind it. -/

/-- Exact model of the float constant SQRT1_2 = 1 / math.sqrt(2): the Q2
value 0 + (1/2)·√2 = 1/√2. -/
def SQRT1_2 : Q2 := ⟨0, 1/2⟩

/-- The character (-1) ^ popcount(t AND j), the sign appearing in entry
(t, j) of the Hadamard transform. -/
def sgn (t j : ℕ) : Q2 := (-1) ^ popcount (t &&& j)

@[simp] theorem sgn_zero_left (j : ℕ) : sgn 0 j = 1 := by
  simp [sgn]

@[simp] theorem sgn_zero_right (t : ℕ) : sgn t 0 = 1 := by
  simp [sgn]

theorem sgn_comm (a j : ℕ) : sgn a j = sgn j a := by
  rw [sgn, sgn, Nat.land_comm]

theorem q2_neg_one_pow_mod (n : ℕ) : (-1 : Q2) ^ (n % 2) = (-1 : Q2) ^ n := by
  rcases Nat.even_or_odd n with h | h
  · rw [Nat.even_iff.mp h, pow_zero, h.neg_one_pow]
  · rw [Nat.odd_iff.mp h, pow_one, h.neg_one_pow]

theorem sgn_rec (a j : ℕ) : sgn a j = (-1) ^ (a % 2 * (j % 2)) * sgn (a / 2) (j / 2) := by
  rw [sgn, sgn, land_two_mul_add,
    popcount_two_mul_add _ _ (mod_two_mul_mod_two_lt_two a j), pow_add]

theorem sgn_mul (a : ℕ) : ∀ b j, sgn a j * sgn b j = sgn (a ^^^ b) j := by
  induction a using Nat.strong_induction_on with
  | _ a ih =>
    intro b j
    by_cases h : a = 0
    · subst h; simp
    · rw [sgn_rec a j, sgn_rec b j, sgn_rec (a ^^^ b) j]
      have hx := xor_two_mul_add a b
      have hc : (a % 2 + b % 2) % 2 < 2 := by omega
      have hx2 : (a ^^^ b) % 2 = (a % 2 + b % 2) % 2 := by omega
      have hx1 : (a ^^^ b) / 2 = a / 2 ^^^ b / 2 := by omega
      rw [hx1, hx2, ← ih (a / 2) (by omega) (b / 2) (j / 2), mul_mul_mul_comm]
      congr 1
      rw [← pow_add, ← q2_neg_one_pow_mod (a % 2 * (j % 2) + b % 2 * (j % 2)),
        ← q2_neg_one_pow_mod ((a % 2 + b % 2) % 2 * (j % 2))]
      congr 1
      rcases Nat.mod_two_eq_zero_or_one j with hj | hj <;> simp [hj]

theorem sgn_split (m ih il jh jl : ℕ) (hil : il < 2 ^ m) (hjl : jl < 2 ^ m) :
    sgn (ih * 2 ^ m + il) (jh * 2 ^ m + jl) = sgn ih jh * sgn il jl := by
  rw [sgn, sgn, sgn, land_high_split m ih il jh jl hil hjl,
    popcount_mul_add m _ _ (land_lt_two_pow il jl m hil), pow_add]

/-- The orthogonality sum: summing the character sgn t j over one full
period gives 2^n for t = 0 and 0 otherwise. -/
theorem sum_sgn (n : ℕ) : ∀ t, t < 2 ^ n →
    (∑ j in Finset.range (2 ^ n), sgn t j) =
      if t = 0 then Q2.ofRat ((2:ℚ) ^ n) else 0 := by
  induction n with
  | zero =>
    intro t ht
    simp only [pow_zero] at ht
    interval_cases t
    simp [Q2.ofRat]
    apply Q2.ext2 <;> simp
  | succ n ih =>
    intro t ht
    have hpos : 0 < (2:ℕ) ^ n := Nat.pos_pow_of_pos n (by omega)
    have hq : (2:ℕ) ^ (n + 1) = 2 ^ n + 2 ^ n := by ring
    rw [hq, Finset.sum_range_add]
    have hth : t / 2 ^ n < 2 := by
      apply Nat.div_lt_of_lt_mul
      calc t < 2 ^ (n+1) := ht
        _ = 2 ^ n * 2 := by ring
    have htl : t % 2 ^ n < 2 ^ n := Nat.mod_lt t hpos
    have hsplit : t / 2 ^ n * 2 ^ n + t % 2 ^ n = t := by
      rw [Nat.mul_comm]
      exact Nat.div_add_mod t (2 ^ n)
    have e1 : ∀ j, j < 2 ^ n → sgn t j = sgn (t % 2 ^ n) j := by
      intro j hj
      conv_lhs => rw [← hsplit]
      rw [sgn, sgn, land_low _ _ _ _ htl hj]
    have e2 : ∀ j, j < 2 ^ n →
        sgn t (2 ^ n + j) = (-1) ^ (t / 2 ^ n) * sgn (t % 2 ^ n) j := by
      intro j hj
      have h1 : (2:ℕ) ^ n + j = 1 * 2 ^ n + j := by ring
      have h2 := sgn_split n (t / 2 ^ n) (t % 2 ^ n) 1 j htl hj
      conv_lhs => rw [← hsplit, h1]
      rw [h2]
      congr 1
      have hs11 : sgn 1 1 = -1 := by
        have hp : popcount (1 &&& 1) = 1 := rfl
        rw [sgn, hp, pow_one]
      interval_cases ht2 : t / 2 ^ n
      · simp
      · rw [hs11, pow_one]
    rw [Finset.sum_congr rfl fun j hj => e1 j (Finset.mem_range.mp hj),
      Finset.sum_congr rfl fun j hj => e2 j (Finset.mem_range.mp hj),
      ← Finset.mul_sum, ih (t % 2 ^ n) htl]
    by_cases h0 : t = 0
    · subst h0
      simp only [Nat.zero_div, Nat.zero_mod, pow_zero, if_pos rfl, one_mul]
      apply Q2.ext2 <;> simp <;> ring
    · rcases Nat.eq_zero_or_pos (t / 2 ^ n) with hd | hd
      · have ht2 : t % 2 ^ n = t := by
          rw [hd] at hsplit
          simpa using hsplit
        have hmod : t % 2 ^ n ≠ 0 := by rw [ht2]; exact h0
        simp [hmod, hd, h0]
      · have hd1 : t / 2 ^ n = 1 := by omega
        rw [hd1]
        by_cases hmod : t % 2 ^ n = 0
        · simp only [hmod, if_pos rfl, pow_one, if_neg h0]
          apply Q2.ext2 <;> simp
        · simp [hmod, h0]

/-- The Hadamard transform matrix of size p, translated from utils.hadamard:
H(1) = [[1]], H(2) = SQRT1_2 * [[1,1],[1,-1]], and for p > 2
H(p) = kron(H(2), H(p/2)), where np.kron places entry
A[i / q, j / q] * B[i % q, j % q] at (i, j) for B of size q = p / 2.
The matrix is represented as its entry function; indices i, j range over
0..p-1 (the theorems always carry these bounds).  The source first runs
log2(p), i.e. asserts that p is an exact power of two; every use in this
file instantiates p = 2 ^ n, which models that assertion. -/
def hadamard (p : ℕ) : ℕ → ℕ → Q2 :=
  if h : 2 < p then
    fun i j =>
      hadamard 2 (i / (p / 2)) (j / (p / 2)) * hadamard (p / 2) (i % (p / 2)) (j % (p / 2))
  else if p = 2 then
    fun i j => SQRT1_2 * (if i = 1 ∧ j = 1 then -1 else 1)
  else
    fun _ _ => 1
termination_by p
decreasing_by
  · omega
  · omega

theorem hadamard_one (i j : ℕ) : hadamard 1 i j = 1 := by
  rw [hadamard]
  norm_num

theorem hadamard_two (i j : ℕ) :
    hadamard 2 i j = SQRT1_2 * (if i = 1 ∧ j = 1 then -1 else 1) := by
  rw [hadamard]
  norm_num

theorem hadamard_rec {p : ℕ} (hp : 2 < p) (i j : ℕ) :
    hadamard p i j =
      hadamard 2 (i / (p / 2)) (j / (p / 2)) * hadamard (p / 2) (i % (p / 2)) (j % (p / 2)) := by
  rw [hadamard]
  rw [dif_pos hp]

theorem hadamard_two_sgn (i j : ℕ) (hi : i < 2) (hj : j < 2) :
    hadamard 2 i j = SQRT1_2 * sgn i j := by
  rw [hadamard_two]
  congr 1
  interval_cases i <;> interval_cases j <;> simp [sgn]
  have hp : popcount 1 = 1 := rfl
  rw [hp, pow_one]

/-- Closed formula for the Hadamard entries: the (i, j) entry of H(2^n) is
(1/√2)^n · (-1)^popcount(i AND j). -/
theorem hadamard_formula (n : ℕ) : ∀ i j, i < 2 ^ n → j < 2 ^ n →
    hadamard (2 ^ n) i j = SQRT1_2 ^ n * sgn i j := by
  induction n using Nat.strong_induction_on with
  | _ n ih =>
    match n with
    | 0 =>
      intro i j hi hj
      simp only [pow_zero] at hi hj
      interval_cases i
      interval_cases j
      rw [pow_zero, hadamard_one]
      simp
    | 1 =>
      intro i j hi hj
      simp only [pow_one] at hi hj
      rw [show (2:ℕ) ^ 1 = 2 by norm_num, hadamard_two_sgn i j hi hj, pow_one]
    | m + 2 =>
      intro i j hi hj
      have hq : (0:ℕ) < 2 ^ (m + 1) := Nat.pos_pow_of_pos _ (by omega)
      have hp2 : (2:ℕ) ^ (m + 2) = 2 ^ (m + 1) * 2 := by ring
      have hgt : 2 < 2 ^ (m + 2) := by
        have : (2:ℕ) ^ 1 ≤ 2 ^ (m + 1) := Nat.pow_le_pow_right (by omega) (by omega)
        simp only [pow_one] at this
        omega
      have hdiv : (2:ℕ) ^ (m + 2) / 2 = 2 ^ (m + 1) := by
        rw [hp2, Nat.mul_div_cancel _ (by omega)]
      rw [hadamard_rec hgt, hdiv]
      have hih : i / 2 ^ (m + 1) < 2 := Nat.div_lt_of_lt_mul (by rw [← hp2]; exact hi)
      have hjh : j / 2 ^ (m + 1) < 2 := Nat.div_lt_of_lt_mul (by rw [← hp2]; exact hj)
      have hil : i % 2 ^ (m + 1) < 2 ^ (m + 1) := Nat.mod_lt i hq
      have hjl : j % 2 ^ (m + 1) < 2 ^ (m + 1) := Nat.mod_lt j hq
      rw [hadamard_two_sgn _ _ hih hjh, ih (m + 1) (by omega) _ _ hil hjl]
      have hsp := sgn_split (m + 1) (i / 2 ^ (m + 1)) (i % 2 ^ (m + 1))
        (j / 2 ^ (m + 1)) (j % 2 ^ (m + 1)) hil hjl
      have hi2 : i / 2 ^ (m + 1) * 2 ^ (m + 1) + i % 2 ^ (m + 1) = i := by
        rw [Nat.mul_comm]; exact Nat.div_add_mod i (2 ^ (m + 1))
      have hj2 : j / 2 ^ (m + 1) * 2 ^ (m + 1) + j % 2 ^ (m + 1) = j := by
        rw [Nat.mul_comm]; exact Nat.div_add_mod j (2 ^ (m + 1))
      rw [hi2, hj2] at hsp
      rw [mul_mul_mul_comm, ← hsp, ← pow_succ']

/-! The simulator: gate values, the quantum register, and its operations. -/

/-- A numpy 2-D array value: explicit shape plus entry function.  Entries
are complex; a float matrix is one whose entries have zero imaginary part. -/
structure GateM where
  rows : ℕ
  cols : ℕ
  entry : ℕ → ℕ → Cplx

/-- utils.log2: returns n with 2 ^ n = p, failing (assert) when p is not an
exact power of two.  The source computes int(math.log2(p)) and asserts
2 ** n == p; the Option result models the assert (and the math domain
error at p = 0).  The implementation searches for the exponent, which has
the same semantics. -/
def log2 (p : ℕ) : Option ℕ := (List.range (p + 1)).find? fun n => 2 ^ n == p

theorem log2_eq_some {p n : ℕ} (h : log2 p = some n) : 2 ^ n = p := by
  have := List.find?_some h
  simpa using this

theorem log2_two_pow (n : ℕ) : log2 (2 ^ n) = some n := by
  cases h : log2 (2 ^ n) with
  | none =>
    exfalso
    have hmem : n ∈ List.range (2 ^ n + 1) :=
      List.mem_range.mpr (by have := Nat.lt_two_pow n; omega)
    have h2 := List.find?_eq_none.mp h n hmem
    simp at h2
  | some m =>
    have hm : (2:ℕ) ^ m = 2 ^ n := log2_eq_some h
    have : m = n := Nat.pow_right_injective (by omega) hm
    rw [this]

/-- The domain check of utils.phase_oracle: np.isin(f, [0, 1]).all(). -/
def validTable (f : List ℤ) : Bool := f.all fun v => v == 0 || v == 1

/-- utils.phase_oracle: the p x p diagonal matrix with i-th diagonal entry
(-1) ^ f[i] (p = len f); fails (assert) iff some table value is not 0 or 1.
The source does NOT check that len f is a power of two. -/
def phase_oracle (f : List ℤ) : Option GateM :=
  if validTable f then
    some ⟨f.length, f.length,
      fun i j => if i = j then Cplx.ofQ2 ((-1) ^ (f.getD i 0).toNat) else 0⟩
  else none

/-- qubit.Qubit: the stored (already normalized) amplitude pair.  The
constructor normalizes by 1/sqrt(|alpha|^2+|beta|^2); the only instances
reached by the claims are Qubit(1, 0) and Qubit(0, 1), on which the
normalization is the identity, so the structure stores the amplitudes. -/
structure Qubit where
  alpha : Cplx
  beta : Cplx
deriving DecidableEq

/-- qubit.zero = Qubit(1, 0). -/
def zeroQubit : Qubit := ⟨1, 0⟩

/-- qubit.one = Qubit(0, 1). -/
def oneQubit : Qubit := ⟨0, 1⟩

/-- A Python value appearing in a QuantumRegister constructor argument:
an int, a string, or a Qubit. -/
inductive PySym where
  | int (k : ℤ)
  | str (s : String)
  | qubit (q : Qubit)
deriving DecidableEq

def PySym.isInt : PySym → Bool
  | .int _ => true
  | _ => false

def PySym.isStr : PySym → Bool
  | .str _ => true
  | _ => false

def PySym.isQubit : PySym → Bool
  | .qubit _ => true
  | _ => false

/-- np.array(q) for a Qubit value: the two-element amplitude vector.
(Only evaluated in the all-Qubit branch; other cases are unreachable.) -/
def PySym.arr : PySym → List Cplx
  | .qubit q => [q.alpha, q.beta]
  | _ => [0, 0]

/-- map(str, qubits) applied to an int entry (only 0 and 1 survive the
subset assert that precedes the map). -/
def PySym.intToStr : PySym → PySym
  | .int k => .str (toString k)
  | s => s

/-- np.kron for 1-D arrays: entry i of kron(a, b) is
a[i / len(b)] * b[i % len(b)]. -/
def kronVec (a b : List Cplx) : List Cplx :=
  (List.range (a.length * b.length)).map fun i =>
    a.getD (i / b.length) 0 * b.getD (i % b.length) 0

/-- The tensor loop of QuantumRegister.__init__: state = ones(1); for q in
reversed(qubits): state = kron(q, state). -/
def kronState (qs : List PySym) : List Cplx :=
  qs.reverse.foldl (fun st q => kronVec q.arr st) [1]

/-- Basis (one-hot) complex vector of length p with the 1 at index idx. -/
def oneHot (p idx : ℕ) : List Cplx :=
  (List.range p).map fun i => if i = idx then 1 else 0

/-- int("".join(qubits), 2): most-significant-bit-first numeric value of a
list of "0"/"1" symbols. -/
def bitsVal (qs : List PySym) : ℕ :=
  qs.foldl (fun acc q => 2 * acc + (if q = .str "1" then 1 else 0)) 0

/-- quantum_register.QuantumRegister: qubit count n and dense state. -/
structure QuantumRegister where
  n : ℕ
  state : List Cplx
deriving DecidableEq

/-- Property p: the basis dimension 2 ^ n. -/
def QuantumRegister.p (r : QuantumRegister) : ℕ := 2 ^ r.n

/-- Accessor `real`: the real parts of the state vector. -/
def QuantumRegister.real (r : QuantumRegister) : List Q2 := r.state.map Cplx.re

/-- QuantumRegister.__init__, translated assert by assert (assert failure =
none).  The symbolic branch converts an all-int list to strings and then
asserts that all entries are strings, so a mixed int/string list fails. -/
def regInit (qs : List PySym) : Option QuantumRegister := do
  guard (qs.length > 0)
  let n := qs.length
  if qs.all PySym.isQubit then
    let st := kronState qs
    guard (st.length = 2 ^ n)
    return ⟨n, st⟩
  else do
    let qs2 ←
      if qs.all PySym.isInt then do
        guard (qs.all fun q => q = .int 0 || q = .int 1)
        pure (qs.map PySym.intToStr)
      else
        pure qs
    guard (qs2.all PySym.isStr)
    guard (qs2.all fun q => q = .str "0" || q = .str "1")
    let st := oneHot (2 ^ n) (bitsVal qs2)
    guard (st.length = 2 ^ n)
    return ⟨n, st⟩

/-- QuantumRegister.apply: asserts the gate shape is (p, p), then replaces
the state with gate @ state and returns the register.  The coercion
np.asarray(gate, float) keeps only the real part of every gate entry. -/
def applyOp (r : QuantumRegister) (g : GateM) : Option QuantumRegister :=
  if g.rows = 2 ^ r.n ∧ g.cols = 2 ^ r.n then
    some ⟨r.n, (List.range g.rows).map fun i =>
      ∑ j in Finset.range g.cols, Cplx.smulQ2 (g.entry i j).re (r.state.getD j 0)⟩
  else none

/-- hadamard(self.p, float) as a gate value. -/
def hGate (p : ℕ) : GateM := ⟨p, p, fun i j => Cplx.ofQ2 (hadamard p i j)⟩

/-- QuantumRegister.h: apply the Hadamard gate for the register size. -/
def hOp (r : QuantumRegister) : Option QuantumRegister := applyOp r (hGate (2 ^ r.n))

/-- The diffusion gate built by QuantumRegister.r:
2 / p * ones((p, p)) - eye(p). -/
def rGate (p : ℕ) : GateM :=
  ⟨p, p, fun i j => Cplx.ofQ2 (Q2.ofRat (2 / (p : ℚ)) - if i = j then 1 else 0)⟩

/-- QuantumRegister.r: apply the diffusion gate. -/
def rOp (r : QuantumRegister) : Option QuantumRegister := applyOp r (rGate (2 ^ r.n))

/-- QuantumRegister.o_f: apply the phase oracle of f. -/
def oOp (r : QuantumRegister) (f : List ℤ) : Option QuantumRegister :=
  (phase_oracle f).bind (applyOp r)

/-! State-shape helpers: states as length-p range maps. -/

/-- The length-p vector whose i-th entry is s i. -/
def vecL (p : ℕ) (s : ℕ → Cplx) : List Cplx := (List.range p).map s

@[simp] theorem vecL_length (p : ℕ) (s : ℕ → Cplx) : (vecL p s).length = p := by
  simp [vecL]

theorem vecL_getD {p j : ℕ} (s : ℕ → Cplx) (h : j < p) : (vecL p s).getD j 0 = s j := by
  simp [vecL, List.getD_eq_getElem?_getD, List.getElem?_map, List.getElem?_range, h]

theorem vecL_congr {p : ℕ} {s t : ℕ → Cplx} (h : ∀ i, i < p → s i = t i) :
    vecL p s = vecL p t := by
  apply List.map_congr_left
  intro i hi
  exact h i (List.mem_range.mp hi)

theorem oneHot_eq_vecL (p idx : ℕ) :
    oneHot p idx = vecL p (fun i => if i = idx then 1 else 0) := rfl

/-- applyOp on a register in vecL form: the new state is the matrix-vector
product of the real part of the gate with the old state. -/
theorem applyOp_vecL (r : QuantumRegister) (g : GateM) (s : ℕ → Cplx)
    (hst : r.state = vecL (2 ^ r.n) s) (hr : g.rows = 2 ^ r.n) (hc : g.cols = 2 ^ r.n) :
    applyOp r g = some ⟨r.n, vecL (2 ^ r.n) fun i =>
      ∑ j in Finset.range (2 ^ r.n), Cplx.smulQ2 (g.entry i j).re (s j)⟩ := by
  rw [applyOp, if_pos ⟨hr, hc⟩, hr, hc]
  congr 1
  congr 1
  apply List.map_congr_left
  intro i _
  apply Finset.sum_congr rfl
  intro j hj
  rw [hst, vecL_getD s (Finset.mem_range.mp hj)]

/-- Applying the Hadamard gate to the basis state |0...0> yields the
uniform superposition with amplitude (1/√2)^n everywhere. -/
theorem hOp_oneHot (n : ℕ) (r : QuantumRegister) (hn : r.n = n)
    (hst : r.state = oneHot (2 ^ n) 0) :
    hOp r = some ⟨n, vecL (2 ^ n) fun _ => Cplx.ofQ2 (SQRT1_2 ^ n)⟩ := by
  subst hn
  rw [hOp, applyOp_vecL r (hGate (2 ^ r.n)) _ (by rw [hst, oneHot_eq_vecL]) rfl rfl]
  congr 1
  congr 1
  apply vecL_congr
  intro i hi
  rw [Finset.sum_eq_single 0]
  · have h0 : (0:ℕ) < 2 ^ r.n := Nat.pos_pow_of_pos _ (by omega)
    rw [hGate]
    simp only
    rw [hadamard_formula r.n i 0 hi h0, sgn_zero_right, mul_one]
    apply Cplx.extC <;> simp
  · intro j _ hj
    simp [hj]
  · intro hmem
    exact absurd (Finset.mem_range.mpr (Nat.pos_pow_of_pos _ (by omega))) hmem

/-- Applying a diagonal gate to a register in vecL form multiplies each
entry by the corresponding real diagonal coefficient. -/
theorem applyOp_diag (r : QuantumRegister) (g : GateM) (d : ℕ → Q2) (s : ℕ → Cplx)
    (hst : r.state = vecL (2 ^ r.n) s) (hr : g.rows = 2 ^ r.n) (hc : g.cols = 2 ^ r.n)
    (hdiag : ∀ i j, (g.entry i j).re = if i = j then d i else 0) :
    applyOp r g = some ⟨r.n, vecL (2 ^ r.n) fun i => Cplx.smulQ2 (d i) (s i)⟩ := by
  rw [applyOp_vecL r g s hst hr hc]
  congr 1
  congr 1
  apply vecL_congr
  intro i hi
  rw [Finset.sum_eq_single i]
  · rw [hdiag, if_pos rfl]
  · intro j _ hj
    rw [hdiag]
    have : ¬ i = j := fun hc2 => hj (hc2.symm)
    simp [this]
  · intro hmem
    exact absurd (Finset.mem_range.mpr hi) hmem

/-- Applying the diffusion gate 2/p J - I to a register in vecL form:
each new entry is 2/p times the total amplitude minus the old entry. -/
theorem rOp_vecL (r : QuantumRegister) (s : ℕ → Cplx)
    (hst : r.state = vecL (2 ^ r.n) s) :
    rOp r = some ⟨r.n, vecL (2 ^ r.n) fun i =>
      Cplx.smulQ2 (Q2.ofRat (2 / ((2 ^ r.n : ℕ) : ℚ)))
        (∑ j in Finset.range (2 ^ r.n), s j) - s i⟩ := by
  rw [rOp, applyOp_vecL r (rGate (2 ^ r.n)) s hst rfl rfl]
  congr 1
  congr 1
  apply vecL_congr
  intro i hi
  have hentry : ∀ j, ((rGate (2 ^ r.n)).entry i j).re
      = Q2.ofRat (2 / ((2 ^ r.n : ℕ) : ℚ)) - (if i = j then 1 else 0) := fun j => rfl
  calc (∑ j in Finset.range (2 ^ r.n), Cplx.smulQ2 ((rGate (2 ^ r.n)).entry i j).re (s j))
      = ∑ j in Finset.range (2 ^ r.n),
          (Cplx.smulQ2 (Q2.ofRat (2 / ((2 ^ r.n : ℕ) : ℚ))) (s j)
            - (if i = j then s j else 0)) := by
        apply Finset.sum_congr rfl
        intro j hj
        rw [hentry j]
        by_cases hij : i = j
        · rw [if_pos hij, if_pos hij]
          apply Cplx.extC <;> simp <;> ring
        · rw [if_neg hij, if_neg hij]
          apply Cplx.extC <;> simp <;> ring
    _ = (∑ j in Finset.range (2 ^ r.n),
          Cplx.smulQ2 (Q2.ofRat (2 / ((2 ^ r.n : ℕ) : ℚ))) (s j))
        - ∑ j in Finset.range (2 ^ r.n), (if i = j then s j else 0) :=
        Finset.sum_sub_distrib
    _ = Cplx.smulQ2 (Q2.ofRat (2 / ((2 ^ r.n : ℕ) : ℚ)))
          (∑ j in Finset.range (2 ^ r.n), s j) - s i := by
        rw [Finset.sum_ite_eq (Finset.range (2 ^ r.n)) i s,
          if_pos (Finset.mem_range.mpr hi), Cplx.smulQ2_sum]

/-- The successful phase oracle as an explicit diagonal gate. -/
theorem phase_oracle_some {f : List ℤ} (h : validTable f = true) :
    phase_oracle f = some ⟨f.length, f.length,
      fun i j => if i = j then Cplx.ofQ2 ((-1) ^ (f.getD i 0).toNat) else 0⟩ := by
  rw [phase_oracle, if_pos h]

theorem phase_oracle_entry_re (f : List ℤ) (i j : ℕ) :
    ((if i = j then Cplx.ofQ2 ((-1 : Q2) ^ (f.getD i 0).toNat) else 0 : Cplx)).re
      = if i = j then (-1 : Q2) ^ (f.getD i 0).toNat else 0 := by
  by_cases hij : i = j <;> simp [hij]

/-! Result extraction: allclose, argmax, binary rendering. -/

/-- np.allclose on scalars with the default tolerances
rtol = 1e-5, atol = 1e-8: the test |x - c| <= atol + rtol * |c|. -/
def allclose (x c : Q2) : Bool :=
  Q2.ble (Q2.absQ (x - c))
    (Q2.ofRat (1 / 100000000) + Q2.ofRat (1 / 100000) * Q2.absQ c)

theorem absQ_ofRat (q : ℚ) : Q2.absQ (Q2.ofRat q) = Q2.ofRat |q| := by
  rw [Q2.absQ, Q2.nonneg_ofRat]
  by_cases h : 0 ≤ q
  · rw [if_pos (by simp [h]), abs_of_nonneg h]
  · rw [if_neg (by simp [h]), abs_of_neg (not_le.mp h)]
    apply Q2.ext2 <;> simp

@[simp] theorem ofRat_one : Q2.ofRat 1 = 1 := rfl

@[simp] theorem ofRat_zero : Q2.ofRat 0 = 0 := rfl

theorem ofRat_neg (q : ℚ) : Q2.ofRat (-q) = -Q2.ofRat q := by
  apply Q2.ext2 <;> simp

theorem ofRat_mul (x y : ℚ) : Q2.ofRat (x * y) = Q2.ofRat x * Q2.ofRat y := by
  apply Q2.ext2 <;> simp

theorem ofRat_add (x y : ℚ) : Q2.ofRat (x + y) = Q2.ofRat x + Q2.ofRat y := by
  apply Q2.ext2 <;> simp

/-- allclose restricted to rational values is the rational tolerance test. -/
theorem allclose_ofRat (x c : ℚ) :
    allclose (Q2.ofRat x) (Q2.ofRat c)
      = decide (|x - c| ≤ 1 / 100000000 + 1 / 100000 * |c|) := by
  rw [allclose, Q2.sub_ofRat, absQ_ofRat, absQ_ofRat, ← ofRat_mul, ← ofRat_add,
    Q2.ble_ofRat]

/-- numpy argmax: the index of the first occurrence of the maximum. -/
def argmaxL (l : List Q2) : ℕ :=
  (List.range l.length).foldl
    (fun best i => if Q2.blt (l.getD best 0) (l.getD i 0) then i else best) 0

theorem argmax_go (l : List Q2) (m : ℕ)
    (hdom : ∀ i, i < l.length → i ≠ m → Q2.blt (l.getD i 0) (l.getD m 0) = true) :
    ∀ (is : List ℕ) (b : ℕ), (∀ i ∈ is, i < l.length) →
      (b = m ∨ Q2.blt (l.getD b 0) (l.getD m 0) = true) →
      (m ∈ is ∨ b = m) →
      is.foldl (fun best i => if Q2.blt (l.getD best 0) (l.getD i 0) then i else best) b
        = m := by
  intro is
  induction is with
  | nil =>
    intro b _ hb h3
    rcases h3 with h | h
    · exact absurd h (List.not_mem_nil m)
    · exact h
  | cons i is ih =>
    intro b hmem hb hm3
    rw [List.foldl_cons]
    by_cases hc : Q2.blt (l.getD b 0) (l.getD i 0) = true
    · rw [if_pos hc]
      apply ih
      · intro x hx
        exact hmem x (List.mem_cons_of_mem i hx)
      · by_cases him : i = m
        · left; exact him
        · right; exact hdom i (hmem i (List.mem_cons_self i is)) him
      · by_cases him : i = m
        · right; exact him
        · left
          rcases hm3 with hmin | hbm
          · rcases List.mem_cons.mp hmin with h1 | h2
            · exact absurd h1.symm him
            · exact h2
          · exfalso
            have hd := hdom i (hmem i (List.mem_cons_self i is)) him
            have ha := Q2.blt_asymm hd
            rw [hbm, ha] at hc
            exact Bool.noConfusion hc
    · rw [if_neg hc]
      apply ih
      · intro x hx
        exact hmem x (List.mem_cons_of_mem i hx)
      · exact hb
      · rcases hm3 with hmin | hbm
        · rcases List.mem_cons.mp hmin with h1 | h2
          · rcases hb with hbm | hblt
            · right; exact hbm
            · exfalso
              apply hc
              rw [h1] at hblt
              exact hblt
          · left; exact h2
        · right; exact hbm

/-- If entry m strictly dominates every other entry then argmax returns m. -/
theorem argmaxL_eq (l : List Q2) (m : ℕ) (hm : m < l.length)
    (hdom : ∀ i, i < l.length → i ≠ m → Q2.blt (l.getD i 0) (l.getD m 0) = true) :
    argmaxL l = m := by
  rw [argmaxL]
  apply argmax_go l m hdom
  · intro i hi
    exact List.mem_range.mp hi
  · by_cases h0 : m = 0
    · left; omega
    · right
      exact hdom 0 (by omega) (fun hc => h0 hc.symm)
  · left
    exact List.mem_range.mpr hm

/-- format(v, "0{n}b") followed by list(map(int, ...)): the n binary
digits of v, most significant first (v < 2 ^ n). -/
def toBits (n v : ℕ) : List ℕ :=
  (List.range n).map fun t => v / 2 ^ (n - 1 - t) % 2

/-- int built from a big-endian bit list. -/
def bitsToNat (s : List ℕ) : ℕ := s.foldl (fun a b => 2 * a + b) 0

theorem bitsToNat_foldl (s : List ℕ) : ∀ a,
    s.foldl (fun a b => 2 * a + b) a = a * 2 ^ s.length + bitsToNat s := by
  induction s with
  | nil => intro a; simp [bitsToNat]
  | cons b rest ih =>
    intro a
    rw [List.foldl_cons, ih (2 * a + b)]
    rw [show bitsToNat (b :: rest) = rest.foldl (fun a b => 2 * a + b) b by
      rw [bitsToNat, List.foldl_cons]; norm_num]
    rw [ih b, List.length_cons]
    ring

theorem bitsToNat_lt (s : List ℕ) (h : ∀ b ∈ s, b < 2) : bitsToNat s < 2 ^ s.length := by
  induction s with
  | nil => simp [bitsToNat]
  | cons b rest ih =>
    have hb : b < 2 := h b (List.mem_cons_self b rest)
    have hrest := ih fun x hx => h x (List.mem_cons_of_mem b hx)
    rw [show bitsToNat (b :: rest) = rest.foldl (fun a b => 2 * a + b) b by
      rw [bitsToNat, List.foldl_cons]; norm_num]
    rw [bitsToNat_foldl rest b, List.length_cons]
    have : (2:ℕ) ^ (rest.length + 1) = 2 ^ rest.length * 2 := by ring
    rw [this]
    nlinarith [Nat.pos_pow_of_pos rest.length (show 0 < 2 by omega)]

@[simp] theorem toBits_zero (v : ℕ) : toBits 0 v = [] := rfl

theorem toBits_succ (n b v : ℕ) (hb : b < 2) (hv : v < 2 ^ n) :
    toBits (n + 1) (b * 2 ^ n + v) = b :: toBits n v := by
  rw [toBits, toBits, List.range_succ_eq_map, List.map_cons, List.map_map]
  congr 1
  · have e1 : n + 1 - 1 - 0 = n := by omega
    rw [e1, mul_comm b (2 ^ n), Nat.mul_add_div (Nat.pos_pow_of_pos n (by omega)),
      Nat.div_eq_of_lt hv]
    omega
  · apply List.map_congr_left
    intro t ht
    have htn : t < n := List.mem_range.mp ht
    simp only [Function.comp]
    have e1 : n + 1 - 1 - (t + 1) = n - 1 - t := by omega
    rw [e1]
    have he : n - 1 - t + 1 ≤ n := by omega
    have hsplit : (2:ℕ) ^ n = 2 ^ (n - 1 - t) * (2 * 2 ^ (n - (n - 1 - t) - 1)) := by
      rw [show 2 ^ (n - 1 - t) * (2 * 2 ^ (n - (n - 1 - t) - 1))
          = 2 ^ (n - 1 - t) * 2 ^ 1 * 2 ^ (n - (n - 1 - t) - 1) by ring,
        ← pow_add, ← pow_add]
      congr 1
      omega
    rw [show b * 2 ^ n + v = 2 ^ (n - 1 - t) * (b * (2 * 2 ^ (n - (n - 1 - t) - 1))) + v by
      rw [hsplit]; ring]
    rw [Nat.mul_add_div (Nat.pos_pow_of_pos _ (by omega)),
      show b * (2 * 2 ^ (n - (n - 1 - t) - 1)) = 2 * (b * 2 ^ (n - (n - 1 - t) - 1)) by ring]
    omega

/-- Rendering and reading back: toBits is the inverse of bitsToNat on
big-endian bit lists. -/
theorem toBits_bitsToNat (s : List ℕ) (h : ∀ b ∈ s, b < 2) :
    toBits s.length (bitsToNat s) = s := by
  induction s with
  | nil => simp [bitsToNat]
  | cons b rest ih =>
    have hb : b < 2 := h b (List.mem_cons_self b rest)
    have hrest : ∀ x ∈ rest, x < 2 := fun x hx => h x (List.mem_cons_of_mem b hx)
    have hlt := bitsToNat_lt rest hrest
    rw [show bitsToNat (b :: rest) = rest.foldl (fun a b => 2 * a + b) b by
      rw [bitsToNat, List.foldl_cons]; norm_num]
    rw [bitsToNat_foldl rest b, List.length_cons,
      toBits_succ rest.length b (bitsToNat rest) hb hlt, ih hrest]

/-! Construction of the all-zero register. -/

theorem kronState_cons (q : PySym) (qs : List PySym) :
    kronState (q :: qs) = kronVec q.arr (kronState qs) := by
  rw [kronState, kronState, List.reverse_cons, List.foldl_append]
  rfl

theorem oneHot_length (p idx : ℕ) : (oneHot p idx).length = p := by
  simp [oneHot]

theorem oneHot_getD {p j : ℕ} (idx : ℕ) (h : j < p) :
    (oneHot p idx).getD j 0 = if j = idx then 1 else 0 := by
  rw [oneHot_eq_vecL]
  exact vecL_getD _ h

theorem kronVec_zeroQubit (m : ℕ) (hm : 0 < m) :
    kronVec (PySym.qubit zeroQubit).arr (oneHot m 0) = oneHot (2 * m) 0 := by
  have hlen : (PySym.qubit zeroQubit).arr.length = 2 := rfl
  have hlen2 : (oneHot m 0).length = m := oneHot_length m 0
  rw [kronVec, hlen, hlen2, oneHot_eq_vecL (2 * m) 0, vecL]
  apply List.map_congr_left
  intro i hi
  have hi2 : i < 2 * m := List.mem_range.mp hi
  by_cases him : i < m
  · rw [Nat.div_eq_of_lt him, Nat.mod_eq_of_lt him, oneHot_getD 0 him]
    have harr : (PySym.qubit zeroQubit).arr.getD 0 0 = 1 := rfl
    rw [harr, one_mul]
  · have hdiv : i / m = 1 := Nat.div_eq_of_lt_le (by omega) (by omega)
    rw [hdiv]
    have harr : (PySym.qubit zeroQubit).arr.getD 1 0 = 0 := rfl
    rw [harr, zero_mul]
    rw [if_neg (by omega)]

theorem kronState_replicate_zero (n : ℕ) :
    kronState (List.replicate n (PySym.qubit zeroQubit)) = oneHot (2 ^ n) 0 := by
  induction n with
  | zero =>
    rw [List.replicate_zero, kronState, List.reverse_nil, List.foldl_nil]
    rfl
  | succ n ih =>
    rw [List.replicate_succ, kronState_cons, ih,
      kronVec_zeroQubit (2 ^ n) (Nat.pos_pow_of_pos n (by omega))]
    congr 1
    ring

/-- QuantumRegister([zero] * n) for n >= 1: the one-hot state at index 0. -/
theorem regInit_zeros (n : ℕ) (hn : 0 < n) :
    regInit (List.replicate n (PySym.qubit zeroQubit)) = some ⟨n, oneHot (2 ^ n) 0⟩ := by
  have hlen : (List.replicate n (PySym.qubit zeroQubit)).length = n := by simp
  have hall : (List.replicate n (PySym.qubit zeroQubit)).all PySym.isQubit = true := by
    rw [List.all_eq_true]
    intro q hq
    rw [List.eq_of_mem_replicate hq]
    rfl
  rw [regInit]
  simp only [hlen, hall, kronState_replicate_zero n, oneHot_length]
  simp [hn, Option.guard]

/-- The real accessor on a vecL-shaped register. -/
theorem real_vecL (n p : ℕ) (s : ℕ → Cplx) :
    (QuantumRegister.mk n (vecL p s)).real = (List.range p).map fun i => (s i).re := by
  rw [QuantumRegister.real, vecL, List.map_map]
  rfl

/-! The algorithm drivers (algorithms.py). -/

/-- One diagnostic trace event; payloads carry the data being printed.
Tracing models the print calls; it never feeds back into the results. -/
inductive Trace where
  | fvals (f : List ℤ)
  | iters (k : ℕ)
  | qubitsT (qs : List PySym)
  | regT (r : QuantumRegister)
  | grovT (i : ℕ) (r : QuantumRegister)
  | found (s : String)
  | foundBits (l : List ℕ)
deriving DecidableEq

/-- The float64 value of numpy.pi as an exact rational:
884279719003555 / 2^48. -/
def npPi : ℚ := 884279719003555 / 281474976710656

/-- The float64 value of math.sqrt(2 ** n) as an exact rational: exact for
even n; for odd n it is 2^((n-1)/2) times the float64 value of sqrt 2
(6369051672525773 / 2^52), because IEEE-754 scaling by powers of 4 is exact
and sqrt is correctly rounded. -/
def sqrtPow2 (n : ℕ) : ℚ :=
  if n % 2 = 0 then 2 ^ (n / 2)
  else 2 ^ (n / 2) * (6369051672525773 / 4503599627370496)

/-- k = math.floor(np.pi * math.sqrt(2 ** n) / 4).  The float product is
modelled by the exact rational product; for every n used the value is far
enough from an integer that the one float rounding cannot move the floor. -/
def groverK (n : ℕ) : ℕ := (Int.floor (npPi * sqrtPow2 n / 4)).toNat

/-- The Grover iteration loop: for i in range(k): qregister.apply(o_f).r(),
with the step-level trace.  The first argument is the remaining iteration
count, the second the number of iterations already done (for the trace
label i + 1). -/
def grLoopAux (of : GateM) (verbose : ℕ) :
    ℕ → ℕ → QuantumRegister → Option QuantumRegister × List Trace
  | 0, _, r => (some r, [])
  | fuel + 1, i, r =>
    match (applyOp r of).bind rOp with
    | none => (none, [])
    | some r2 =>
      let t := if 1 < verbose then [Trace.grovT (i + 1) r2] else []
      let rest := grLoopAux of verbose fuel (i + 1) r2
      (rest.fst, t ++ rest.snd)

/-- algorithms.deutsch_jozsa_algorithm, line by line; the first component
is the returned classification (none where the source raises), the second
the emitted diagnostic trace. -/
def djRun (f : List ℤ) (verbose : ℕ) : Option String × List Trace :=
  let t0 := if 0 < verbose then [Trace.fvals f] else []
  match log2 f.length with
  | none => (none, t0)
  | some n =>
    match phase_oracle f with
    | none => (none, t0)
    | some of =>
      let qubits := List.replicate n (PySym.qubit zeroQubit)
      let t1 := t0 ++ if 1 < verbose then [Trace.qubitsT qubits] else []
      match regInit qubits with
      | none => (none, t1)
      | some r0 =>
        let t2 := t1 ++ if 1 < verbose then [Trace.regT r0] else []
        match hOp r0 with
        | none => (none, t2)
        | some r1 =>
          let t3 := t2 ++ if 1 < verbose then [Trace.regT r1] else []
          match applyOp r1 of with
          | none => (none, t3)
          | some r2 =>
            let t4 := t3 ++ if 1 < verbose then [Trace.regT r2] else []
            match hOp r2 with
            | none => (none, t4)
            | some r3 =>
              let t5 := t4 ++ if 1 < verbose then [Trace.regT r3] else []
              let flag := r3.real.getD 0 0
              let ft := if allclose flag 1 then "constant 0"
                else if allclose flag (-1) then "constant 1"
                else if allclose flag 0 then "balanced"
                else "other"
              (some ft, t5 ++ if 0 < verbose then [Trace.found ft] else [])

/-- algorithms.grover_algorithm, line by line. -/
def groverRun (f : List ℤ) (verbose : ℕ) : Option (List ℕ) × List Trace :=
  let t0 := if 0 < verbose then [Trace.fvals f] else []
  match log2 f.length with
  | none => (none, t0)
  | some n =>
    match phase_oracle f with
    | none => (none, t0)
    | some of =>
      let k := groverK n
      let t1 := t0 ++ if 1 < verbose then [Trace.iters k] else []
      let qubits := List.replicate n (PySym.qubit zeroQubit)
      let t2 := t1 ++ if 1 < verbose then [Trace.qubitsT qubits] else []
      match regInit qubits with
      | none => (none, t2)
      | some r0 =>
        let t3 := t2 ++ if 1 < verbose then [Trace.regT r0] else []
        match hOp r0 with
        | none => (none, t3)
        | some r1 =>
          let t4 := t3 ++ if 1 < verbose then [Trace.regT r1] else []
          match grLoopAux of verbose k 0 r1 with
          | (none, ts) => (none, t4 ++ ts)
          | (some r2, ts) =>
            let t5 := t4 ++ ts
            let bits := toBits n (argmaxL (r2.real.map fun x => x * x))
            (some bits, t5 ++ if 0 < verbose then [Trace.foundBits bits] else [])

/-- algorithms.bernstein_vazirani_algorithm, line by line. -/
def bvRun (f : List ℤ) (verbose : ℕ) : Option (List ℕ) × List Trace :=
  let t0 := if 0 < verbose then [Trace.fvals f] else []
  match log2 f.length with
  | none => (none, t0)
  | some n =>
    match phase_oracle f with
    | none => (none, t0)
    | some of =>
      let qubits := List.replicate n (PySym.qubit zeroQubit)
      let t1 := t0 ++ if 1 < verbose then [Trace.qubitsT qubits] else []
      match regInit qubits with
      | none => (none, t1)
      | some r0 =>
        let t2 := t1 ++ if 1 < verbose then [Trace.regT r0] else []
        match hOp r0 with
        | none => (none, t2)
        | some r1 =>
          let t3 := t2 ++ if 1 < verbose then [Trace.regT r1] else []
          match applyOp r1 of with
          | none => (none, t3)
          | some r2 =>
            let t4 := t3 ++ if 1 < verbose then [Trace.regT r2] else []
            match hOp r2 with
            | none => (none, t4)
            | some r3 =>
              let t5 := t4 ++ if 1 < verbose then [Trace.regT r3] else []
              let key := toBits n (argmaxL r3.real)
              (some key, t5 ++ if 0 < verbose then [Trace.foundBits key] else [])

/-! The Hadamard - oracle - Hadamard pipeline. -/

theorem SQRT1_2_mul_self : SQRT1_2 * SQRT1_2 = Q2.ofRat (1 / 2) := by
  apply Q2.ext2 <;> simp [SQRT1_2, Q2.ofRat] <;> norm_num

theorem SQRT1_2_pow_mul_self (n : ℕ) :
    SQRT1_2 ^ n * SQRT1_2 ^ n = Q2.ofRat (1 / 2 ^ n) := by
  rw [← mul_pow, SQRT1_2_mul_self]
  rw [show Q2.ofRat (1 / 2) = Q2.ratHom (1 / 2) from rfl, ← map_pow]
  rw [Q2.ratHom_apply]
  congr 1
  rw [div_pow, one_pow]

theorem smulQ2_ofQ2 (a c : Q2) : Cplx.smulQ2 a (Cplx.ofQ2 c) = Cplx.ofQ2 (a * c) := by
  apply Cplx.extC <;> simp

theorem hOp_vecL (r : QuantumRegister) (s : ℕ → Cplx)
    (hst : r.state = vecL (2 ^ r.n) s) :
    hOp r = some ⟨r.n, vecL (2 ^ r.n) fun i =>
      ∑ j in Finset.range (2 ^ r.n), Cplx.smulQ2 (hadamard (2 ^ r.n) i j) (s j)⟩ := by
  rw [hOp, applyOp_vecL r (hGate (2 ^ r.n)) s hst rfl rfl]
  rfl

/-- The sign factor of a 0/1 table entry. -/
def fsgn (f : List ℤ) (j : ℕ) : Q2 := (-1) ^ (f.getD j 0).toNat

/-- Applying the phase oracle of f to the uniform superposition. -/
theorem oracle_step (n : ℕ) (f : List ℤ) (hlen : f.length = 2 ^ n) :
    applyOp ⟨n, vecL (2 ^ n) fun _ => Cplx.ofQ2 (SQRT1_2 ^ n)⟩
      ⟨f.length, f.length,
        fun i j => if i = j then Cplx.ofQ2 ((-1) ^ (f.getD i 0).toNat) else 0⟩
      = some ⟨n, vecL (2 ^ n) fun i =>
          Cplx.smulQ2 (fsgn f i) (Cplx.ofQ2 (SQRT1_2 ^ n))⟩ :=
  applyOp_diag _ _ (fun i => fsgn f i) _ rfl hlen hlen (phase_oracle_entry_re f)

/-- The second Hadamard: the final state of the Deutsch-Jozsa and
Bernstein-Vazirani pipelines, as an exact character sum. -/
theorem hoh_final_state (n : ℕ) (f : List ℤ) :
    hOp ⟨n, vecL (2 ^ n) fun i => Cplx.smulQ2 (fsgn f i) (Cplx.ofQ2 (SQRT1_2 ^ n))⟩
      = some ⟨n, vecL (2 ^ n) fun i =>
          Cplx.ofQ2 (Q2.ofRat (1 / 2 ^ n) *
            ∑ j in Finset.range (2 ^ n), sgn i j * fsgn f j)⟩ := by
  rw [hOp_vecL ⟨n, vecL (2 ^ n) fun i => Cplx.smulQ2 (fsgn f i) (Cplx.ofQ2 (SQRT1_2 ^ n))⟩
    _ rfl]
  dsimp only
  congr 1
  congr 1
  apply vecL_congr
  intro i hi
  calc (∑ j in Finset.range (2 ^ n),
        Cplx.smulQ2 (hadamard (2 ^ n) i j)
          (Cplx.smulQ2 (fsgn f j) (Cplx.ofQ2 (SQRT1_2 ^ n))))
      = ∑ j in Finset.range (2 ^ n),
          Cplx.ofQ2 (SQRT1_2 ^ n * sgn i j * (fsgn f j * SQRT1_2 ^ n)) := by
        apply Finset.sum_congr rfl
        intro j hj
        rw [smulQ2_ofQ2, smulQ2_ofQ2,
          hadamard_formula n i j hi (Finset.mem_range.mp hj)]
    _ = Cplx.ofQ2 (∑ j in Finset.range (2 ^ n),
          SQRT1_2 ^ n * sgn i j * (fsgn f j * SQRT1_2 ^ n)) := by
        simp only [show ∀ x, Cplx.ofQ2 x = Cplx.q2Hom x from fun x => rfl]
        rw [map_sum]
    _ = Cplx.ofQ2 (Q2.ofRat (1 / 2 ^ n) *
          ∑ j in Finset.range (2 ^ n), sgn i j * fsgn f j) := by
        congr 1
        rw [Finset.mul_sum]
        apply Finset.sum_congr rfl
        intro j _
        rw [← SQRT1_2_pow_mul_self n]
        ring

theorem getD_range_map_q2 {p j : ℕ} (g : ℕ → Q2) (h : j < p) :
    ((List.range p).map g).getD j 0 = g j := by
  simp [List.getD_eq_getElem?_getD, List.getElem?_map, List.getElem?_range, h]

/-- Summing the sign factors of a 0/1 table counts zeros minus ones. -/
theorem sum_fsgn (f : List ℤ) (hval : validTable f = true) :
    (∑ j in Finset.range f.length, fsgn f j)
      = Q2.ofRat ((f.length : ℚ) - 2 * (f.count 1 : ℚ)) := by
  induction f with
  | nil =>
    apply Q2.ext2 <;> simp
  | cons a l ih =>
    rw [validTable, List.all_cons, Bool.and_eq_true] at hval
    have hvl : validTable l = true := hval.2
    have hva : a = 0 ∨ a = 1 := by
      rcases hval.1 with h
      simp only [Bool.or_eq_true, beq_iff_eq] at h
      exact h
    rw [List.length_cons, Finset.sum_range_succ']
    have he : ∀ j, fsgn (a :: l) (j + 1) = fsgn l j := by
      intro j
      rw [fsgn, fsgn, List.getD_cons_succ]
    rw [Finset.sum_congr rfl fun j _ => he j, ih hvl]
    have hc : ((a :: l).count 1 : ℚ) = (l.count 1 : ℚ) + if a = 1 then 1 else 0 := by
      rw [List.count_cons]
      rcases hva with h | h <;> subst h <;> norm_num
    have hf0 : fsgn (a :: l) 0 = Q2.ofRat (if a = 1 then -1 else 1) := by
      rw [fsgn, List.getD_cons_zero]
      rcases hva with h | h <;> subst h
      · norm_num
      · norm_num
        apply Q2.ext2 <;> simp
    rw [hf0, hc]
    apply Q2.ext2 <;> rcases hva with h | h <;> subst h <;> simp <;> push_cast <;> ring

/-- The classification chain at the end of the Deutsch-Jozsa driver. -/
def djClassify (flag : Q2) : String :=
  if allclose flag 1 then "constant 0"
  else if allclose flag (-1) then "constant 1"
  else if allclose flag 0 then "balanced"
  else "other"

/-- Master lemma for the Deutsch-Jozsa driver on a valid table: the result
is the classification of the exact flag (2^n - 2 * ones) / 2^n. -/
theorem djRun_fst (n : ℕ) (hn : 0 < n) (f : List ℤ) (hlen : f.length = 2 ^ n)
    (hval : validTable f = true) (v : ℕ) :
    (djRun f v).fst = some (djClassify (Q2.ofRat (1 / 2 ^ n) *
      Q2.ofRat (((2:ℚ) ^ n) - 2 * (f.count 1 : ℚ)))) := by
  unfold djRun
  rw [hlen, log2_two_pow n, phase_oracle_some hval]
  dsimp only
  rw [regInit_zeros n hn]
  dsimp only
  rw [hOp_oneHot n _ rfl rfl]
  dsimp only
  rw [oracle_step n f hlen]
  dsimp only
  rw [hoh_final_state n f]
  dsimp only
  congr 1
  have hflag : (QuantumRegister.mk n (vecL (2 ^ n) fun i =>
      Cplx.ofQ2 (Q2.ofRat (1 / 2 ^ n) *
        ∑ j in Finset.range (2 ^ n), sgn i j * fsgn f j))).real.getD 0 0
      = Q2.ofRat (1 / 2 ^ n) * Q2.ofRat (((2:ℚ) ^ n) - 2 * (f.count 1 : ℚ)) := by
    rw [real_vecL, getD_range_map_q2 _ (Nat.pos_pow_of_pos n (by omega))]
    rw [Cplx.ofQ2_re]
    congr 1
    rw [Finset.sum_congr rfl fun j _ => by rw [sgn_zero_left, one_mul]]
    have hs := sum_fsgn f hval
    rw [hlen] at hs
    rw [hs]
    congr 1
    push_cast
    ring
  rw [hflag, djClassify]

theorem djClassify_one : djClassify (Q2.ofRat 1) = "constant 0" := by
  rw [djClassify, show (1 : Q2) = Q2.ofRat 1 from rfl, allclose_ofRat]
  norm_num

theorem djClassify_negOne : djClassify (Q2.ofRat (-1)) = "constant 1" := by
  rw [djClassify, show (-1 : Q2) = Q2.ofRat (-1) by apply Q2.ext2 <;> simp,
    show (1 : Q2) = Q2.ofRat 1 from rfl,
    allclose_ofRat, allclose_ofRat]
  norm_num

theorem djClassify_zero : djClassify (Q2.ofRat 0) = "balanced" := by
  rw [djClassify, show (-1 : Q2) = Q2.ofRat (-1) by apply Q2.ext2 <;> simp,
    show (1 : Q2) = Q2.ofRat 1 from rfl,
    show (0 : Q2) = Q2.ofRat 0 from rfl,
    allclose_ofRat, allclose_ofRat, allclose_ofRat]
  norm_num

/-- C1: for every n >= 1 and truth table f of length 2^n with values in
{0, 1}, the Deutsch-Jozsa driver classifies by the real part of the final
amplitude at index 0: it returns "constant 0" when f is all zeros,
"constant 1" when f is all ones, "balanced" when exactly half of the
values are 0 and half are 1, and "other" only for tables that are neither
constant nor balanced. -/
theorem C1_deutsch_jozsa_classification (n : ℕ) (f : List ℤ) (v : ℕ)
    (hn : 1 ≤ n) (hlen : f.length = 2 ^ n) (hval : ∀ x ∈ f, x = 0 ∨ x = 1) :
    ((∀ x ∈ f, x = 0) → (djRun f v).fst = some "constant 0")
    ∧ ((∀ x ∈ f, x = 1) → (djRun f v).fst = some "constant 1")
    ∧ (2 * f.count 1 = f.length → (djRun f v).fst = some "balanced")
    ∧ ((djRun f v).fst = some "other" →
        ¬ (∀ x ∈ f, x = 0) ∧ ¬ (∀ x ∈ f, x = 1) ∧ ¬ (2 * f.count 1 = f.length)) := by
  have hvalB : validTable f = true := by
    rw [validTable, List.all_eq_true]
    intro x hx
    rcases hval x hx with h | h <;> simp [h]
  have master := djRun_fst n hn f hlen hvalB v
  have hp2 : ((2:ℚ) ^ n) ≠ 0 := by positivity
  have part1 : (∀ x ∈ f, x = 0) → (djRun f v).fst = some "constant 0" := by
    intro h0
    have hcount : f.count 1 = 0 := by
      rw [List.count_eq_zero]
      intro hmem
      have := h0 1 hmem
      norm_num at this
    have hF : Q2.ofRat (1 / 2 ^ n) * Q2.ofRat ((2:ℚ) ^ n - 2 * (f.count 1 : ℚ))
        = Q2.ofRat 1 := by
      rw [← ofRat_mul, hcount]
      congr 1
      push_cast
      field_simp
    rw [master, hF, djClassify_one]
  have part2 : (∀ x ∈ f, x = 1) → (djRun f v).fst = some "constant 1" := by
    intro h1
    have hcount : f.count 1 = f.length := by
      rw [List.count_eq_length]
      intro x hx
      exact (h1 x hx).symm
    have hF : Q2.ofRat (1 / 2 ^ n) * Q2.ofRat ((2:ℚ) ^ n - 2 * (f.count 1 : ℚ))
        = Q2.ofRat (-1) := by
      rw [← ofRat_mul, hcount, hlen]
      congr 1
      push_cast
      field_simp
      ring
    rw [master, hF, djClassify_negOne]
  have part3 : 2 * f.count 1 = f.length → (djRun f v).fst = some "balanced" := by
    intro hb
    have hcq : 2 * (f.count 1 : ℚ) = (2:ℚ) ^ n := by
      have : ((2 * f.count 1 : ℕ) : ℚ) = ((f.length : ℕ) : ℚ) := by
        rw [hb]
      rw [hlen] at this
      push_cast at this
      rw [this]
    have hF : Q2.ofRat (1 / 2 ^ n) * Q2.ofRat ((2:ℚ) ^ n - 2 * (f.count 1 : ℚ))
        = Q2.ofRat 0 := by
      rw [← ofRat_mul]
      congr 1
      rw [hcq]
      ring
    rw [master, hF, djClassify_zero]
  refine ⟨part1, part2, part3, ?_⟩
  intro hother
  refine ⟨?_, ?_, ?_⟩
  · intro hc
    have := part1 hc
    rw [hother] at this
    simp at this
  · intro hc
    have := part2 hc
    rw [hother] at this
    simp at this
  · intro hc
    have := part3 hc
    rw [hother] at this
    simp at this

/-- Witness for C1 at the concrete input n = 1, f = [0, 0]. -/
theorem C1_deutsch_jozsa_classification_witness :
    (djRun [0, 0] 0).fst = some "constant 0" :=
  (C1_deutsch_jozsa_classification 1 [0, 0] 0 (by norm_num) (by norm_num)
    (by intro x hx; simp at hx; omega)).1 (by intro x hx; simp at hx; omega)

/-! Verbosity noninterference. -/

theorem grLoopAux_fst_verbose (of : GateM) (v1 v2 : ℕ) :
    ∀ (fuel i : ℕ) (r : QuantumRegister),
      (grLoopAux of v1 fuel i r).fst = (grLoopAux of v2 fuel i r).fst := by
  intro fuel
  induction fuel with
  | zero => intro i r; rfl
  | succ fuel ih =>
    intro i r
    rw [grLoopAux, grLoopAux]
    cases happ : (applyOp r of).bind rOp with
    | none => rfl
    | some r2 =>
      dsimp only
      exact ih (i + 1) r2

theorem djRun_fst_verbose (f : List ℤ) (v1 v2 : ℕ) :
    (djRun f v1).fst = (djRun f v2).fst := by
  unfold djRun
  cases hl : log2 f.length with
  | none => rfl
  | some n =>
    dsimp only
    cases ho : phase_oracle f with
    | none => rfl
    | some of =>
      dsimp only
      cases hr : regInit (List.replicate n (PySym.qubit zeroQubit)) with
      | none => rfl
      | some r0 =>
        dsimp only
        cases h1 : hOp r0 with
        | none => rfl
        | some r1 =>
          dsimp only
          cases h2 : applyOp r1 of with
          | none => rfl
          | some r2 =>
            dsimp only
            cases h3 : hOp r2 with
            | none => rfl
            | some r3 => rfl

theorem bvRun_fst_verbose (f : List ℤ) (v1 v2 : ℕ) :
    (bvRun f v1).fst = (bvRun f v2).fst := by
  unfold bvRun
  cases hl : log2 f.length with
  | none => rfl
  | some n =>
    dsimp only
    cases ho : phase_oracle f with
    | none => rfl
    | some of =>
      dsimp only
      cases hr : regInit (List.replicate n (PySym.qubit zeroQubit)) with
      | none => rfl
      | some r0 =>
        dsimp only
        cases h1 : hOp r0 with
        | none => rfl
        | some r1 =>
          dsimp only
          cases h2 : applyOp r1 of with
          | none => rfl
          | some r2 =>
            dsimp only
            cases h3 : hOp r2 with
            | none => rfl
            | some r3 => rfl

theorem groverRun_fst_verbose (f : List ℤ) (v1 v2 : ℕ) :
    (groverRun f v1).fst = (groverRun f v2).fst := by
  unfold groverRun
  cases hl : log2 f.length with
  | none => rfl
  | some n =>
    dsimp only
    cases ho : phase_oracle f with
    | none => rfl
    | some of =>
      dsimp only
      cases hr : regInit (List.replicate n (PySym.qubit zeroQubit)) with
      | none => rfl
      | some r0 =>
        dsimp only
        cases h1 : hOp r0 with
        | none => rfl
        | some r1 =>
          dsimp only
          have hfst := grLoopAux_fst_verbose of v1 v2 (groverK n) 0 r1
          cases hp1 : grLoopAux of v1 (groverK n) 0 r1 with
          | mk res1 ts1 =>
            cases hp2 : grLoopAux of v2 (groverK n) 0 r1 with
            | mk res2 ts2 =>
              rw [hp1, hp2] at hfst
              dsimp only at hfst
              subst hfst
              cases res1 with
              | none => rfl
              | some r2 => rfl

/-- C9: for each of the three drivers and every truth table, the returned
result is identical for every verbosity level: verbosity only controls
trace emission and never alters control flow or the returned value. -/
theorem C9_verbosity_noninterference (f : List ℤ) (v1 v2 : ℕ) :
    (djRun f v1).fst = (djRun f v2).fst
    ∧ (groverRun f v1).fst = (groverRun f v2).fst
    ∧ (bvRun f v1).fst = (bvRun f v2).fst :=
  ⟨djRun_fst_verbose f v1 v2, groverRun_fst_verbose f v1 v2, bvRun_fst_verbose f v1 v2⟩

/-! C5: the phase oracle. -/

theorem validTable_iff (f : List ℤ) :
    validTable f = true ↔ ∀ x ∈ f, x = 0 ∨ x = 1 := by
  rw [validTable, List.all_eq_true]
  constructor
  · intro h x hx
    have := h x hx
    simp only [Bool.or_eq_true, beq_iff_eq] at this
    exact this
  · intro h x hx
    rcases h x hx with h2 | h2 <;> simp [h2]

/-- Counterexample for C5 as stated: on the table [0, 1, 1], whose length 3
is not a power of two, phase_oracle does not fail, so failing is not
equivalent to (bad value or length not a power of two). -/
theorem C5_phase_oracle_counterexample :
    ¬ (((phase_oracle [0, 1, 1]).isNone = true) ↔
        (validTable [0, 1, 1] = false ∨ (log2 (List.length [0, 1, 1])).isNone = true)) := by
  decide

/-- C5 amended: phase_oracle f fails iff some value of f is not 0 or 1
(there is no power-of-two check on the length); on success it returns the
(len f) x (len f) matrix with diagonal (-1)^f[i] and zero elsewhere. -/
theorem C5_phase_oracle_amended (f : List ℤ) :
    (phase_oracle f = none ↔ ¬ (∀ x ∈ f, x = 0 ∨ x = 1))
    ∧ ((∀ x ∈ f, x = 0 ∨ x = 1) →
        ∃ g, phase_oracle f = some g ∧ g.rows = f.length ∧ g.cols = f.length
          ∧ ∀ i j, g.entry i j
              = if i = j then Cplx.ofQ2 ((-1) ^ (f.getD i 0).toNat) else 0) := by
  constructor
  · rw [phase_oracle]
    by_cases h : validTable f = true
    · rw [if_pos h]
      simp only [reduceCtorEq, false_iff, not_not]
      exact (validTable_iff f).mp h
    · rw [if_neg h]
      simp only [true_iff]
      intro hc
      exact h ((validTable_iff f).mpr hc)
  · intro h
    rw [phase_oracle, if_pos ((validTable_iff f).mpr h)]
    exact ⟨_, rfl, rfl, rfl, fun i j => rfl⟩

/-- Witness for the amended C5 at f = [0, 1]. -/
theorem C5_phase_oracle_amended_witness : (phase_oracle [0, 1]).isSome = true := by
  obtain ⟨g, hg, -⟩ := (C5_phase_oracle_amended [0, 1]).2 (by decide)
  rw [hg]
  rfl

/-! C4: QuantumRegister.apply. -/

/-- Modelled from the spec: apply as the specification describes it, i.e.
the full complex matrix-vector product gate . state with the gate's
complex entries preserved (the code instead coerces the gate to float). -/
def specApply (r : QuantumRegister) (g : GateM) : Option QuantumRegister :=
  if g.rows = 2 ^ r.n ∧ g.cols = 2 ^ r.n then
    some ⟨r.n, (List.range g.rows).map fun i =>
      ∑ j in Finset.range g.cols, g.entry i j * r.state.getD j 0⟩
  else none

/-- Counterexample for C4 as stated: on the 1-qubit register in state
(1, 0) and the unitary complex gate i·I, the source discards the imaginary
parts (np.asarray(gate, float)), producing the zero state instead of the
complex product (i, 0). -/
theorem C4_apply_counterexample :
    applyOp ⟨1, [1, 0]⟩ ⟨2, 2, fun i j => if i = j then Cplx.mk 0 1 else 0⟩
      ≠ specApply ⟨1, [1, 0]⟩ ⟨2, 2, fun i j => if i = j then Cplx.mk 0 1 else 0⟩ := by
  have hre : ∀ i j : ℕ, ((if i = j then Cplx.mk 0 1 else 0 : Cplx)).re = 0 := by
    intro i j
    split <;> rfl
  have h1 : applyOp ⟨1, [1, 0]⟩ ⟨2, 2, fun i j => if i = j then Cplx.mk 0 1 else 0⟩
      = some ⟨1, [0, 0]⟩ := by
    rw [applyOp, if_pos (by norm_num)]
    congr 1
    congr 1
    rw [show List.range 2 = [0, 1] from rfl]
    simp [hre]
  have h2 : specApply ⟨1, [1, 0]⟩ ⟨2, 2, fun i j => if i = j then Cplx.mk 0 1 else 0⟩
      = some ⟨1, [Cplx.mk 0 1, 0]⟩ := by
    rw [specApply, if_pos (by norm_num)]
    congr 1
    congr 1
    rw [show List.range 2 = [0, 1] from rfl]
    simp only [List.map_cons, List.map_nil, List.cons.injEq, and_true]
    constructor
    · rw [Finset.sum_range_succ, Finset.sum_range_succ, Finset.sum_range_zero]
      norm_num
    · rw [Finset.sum_range_succ, Finset.sum_range_succ, Finset.sum_range_zero]
      norm_num
  rw [h1, h2]
  intro h
  simp only [Option.some.injEq, QuantumRegister.mk.injEq, true_and, List.cons.injEq] at h
  have h3 : (0 : Cplx).im = (Cplx.mk 0 1).im := by rw [h.1]
  simp only [Cplx.zero_im] at h3
  exact absurd h3 (by decide)

/-- C4 amended: apply fails with the shape assert iff the gate is not
p x p; otherwise it replaces the state with Re(gate) . state - the float
coercion discards the imaginary parts of the gate - and returns the
register (same register identity n, mutated state). -/
theorem C4_apply_amended (r : QuantumRegister) (g : GateM) :
    (applyOp r g = none ↔ ¬ (g.rows = 2 ^ r.n ∧ g.cols = 2 ^ r.n))
    ∧ (g.rows = 2 ^ r.n ∧ g.cols = 2 ^ r.n →
        ∃ r2, applyOp r g = some r2 ∧ r2.n = r.n
          ∧ r2.state = (List.range (2 ^ r.n)).map fun i =>
              ∑ j in Finset.range (2 ^ r.n),
                Cplx.smulQ2 (g.entry i j).re (r.state.getD j 0)) := by
  constructor
  · rw [applyOp]
    by_cases h : g.rows = 2 ^ r.n ∧ g.cols = 2 ^ r.n
    · rw [if_pos h]
      simp only [reduceCtorEq, false_iff, not_not]
      exact h
    · rw [if_neg h]
      simp only [true_iff]
      exact h
  · intro h
    rw [applyOp, if_pos h, h.1, h.2]
    exact ⟨_, rfl, rfl, rfl⟩

/-- Witness for the amended C4: the all-ones 2 x 2 float gate applied to a
1-qubit register succeeds. -/
theorem C4_apply_amended_witness :
    (applyOp ⟨1, [1, 0]⟩ ⟨2, 2, fun _ _ => 1⟩).isSome = true := by
  obtain ⟨r2, hr2, -⟩ :=
    (C4_apply_amended ⟨1, [1, 0]⟩ ⟨2, 2, fun _ _ => 1⟩).2 (by norm_num)
  rw [hr2]
  rfl

/-! C7: the state length invariant. -/

theorem option_failure_eq_none {α : Type} : (failure : Option α) = none := rfl

theorem guard_eq_some {P : Prop} [Decidable P] (hp : P) : (guard P : Option Unit) = some () := by
  unfold guard
  rw [if_pos hp]
  rfl

theorem intToStr_isStr {qs : List PySym} (hD : qs.all PySym.isInt = true) :
    ∀ a ∈ qs, (PySym.intToStr a).isStr = true := by
  intro a ha
  have := List.all_eq_true.mp hD a ha
  cases a with
  | int k => rfl
  | str s => exact absurd this (by simp [PySym.isInt])
  | qubit qb => exact absurd this (by simp [PySym.isInt])

theorem intToStr_valid {qs : List PySym}
    (hE : qs.all (fun q => q = PySym.int 0 || q = PySym.int 1) = true) :
    ∀ a ∈ qs, PySym.intToStr a = PySym.str "0" ∨ PySym.intToStr a = PySym.str "1" := by
  intro a ha
  have h2 := List.all_eq_true.mp hE a ha
  simp only [Bool.or_eq_true, decide_eq_true_eq] at h2
  rcases h2 with h2 | h2 <;> subst h2
  · left; rfl
  · right; rfl

theorem regInit_length {qs : List PySym} {r : QuantumRegister}
    (h : regInit qs = some r) : r.n = qs.length ∧ r.state.length = 2 ^ r.n := by
  by_cases hA : qs.length > 0
  · by_cases hB : qs.all PySym.isQubit = true
    · by_cases hC : (kronState qs).length = 2 ^ qs.length
      · simp [regInit, Option.guard, hA, hB, hC] at h
        rw [← h]
        exact ⟨rfl, hC⟩
      · simp [regInit, Option.guard, option_failure_eq_none, hA, hB, hC] at h
    · by_cases hD : qs.all PySym.isInt = true
      · by_cases hE : qs.all (fun q => q = PySym.int 0 || q = PySym.int 1) = true
        · have hFb : (qs.map PySym.intToStr).all PySym.isStr = true :=
            List.all_eq_true.mpr fun a ha => by
              obtain ⟨q, hq, rfl⟩ := List.mem_map.mp ha
              exact intToStr_isStr hD q hq
          have hGb : ((qs.map PySym.intToStr).all
              fun q => q = PySym.str "0" || q = PySym.str "1") = true :=
            List.all_eq_true.mpr fun a ha => by
              obtain ⟨q, hq, rfl⟩ := List.mem_map.mp ha
              rcases intToStr_valid hE q hq with h2 | h2 <;> simp [h2]
          simp only [regInit, Option.guard, hA, hB, hD, hE, if_true, if_false,
            Bool.false_eq_true, gt_iff_lt] at h
          simp only [show (guard True : Option Unit) = some () from guard_eq_some trivial,
            Option.pure_def, Bind.bind, Option.bind] at h
          rw [guard_eq_some hFb, guard_eq_some hGb,
            guard_eq_some (oneHot_length (2 ^ qs.length) (bitsVal (qs.map PySym.intToStr)))] at h
          simp only [Bind.bind, Option.bind, Option.some.injEq] at h
          rw [← h]
          exact ⟨rfl, oneHot_length _ _⟩
        · simp [regInit, Option.guard, option_failure_eq_none, hA, hB, hD, hE] at h
      · by_cases hF : qs.all PySym.isStr = true
        · by_cases hG : qs.all (fun q => q = PySym.str "0" || q = PySym.str "1") = true
          · simp only [regInit, Option.guard, hA, hB, hD, if_true, if_false,
              Bool.false_eq_true, gt_iff_lt] at h
            simp only [show (guard True : Option Unit) = some () from guard_eq_some trivial,
              Option.pure_def, Bind.bind, Option.bind] at h
            rw [guard_eq_some hF, guard_eq_some hG,
              guard_eq_some (oneHot_length (2 ^ qs.length) (bitsVal qs))] at h
            simp only [Bind.bind, Option.bind, Option.some.injEq] at h
            rw [← h]
            exact ⟨rfl, oneHot_length _ _⟩
          · have hG2 : ¬ ∀ a ∈ qs, a = PySym.str "0" ∨ a = PySym.str "1" := by
              intro hc
              apply hG
              rw [List.all_eq_true]
              intro a ha
              rcases hc a ha with h2 | h2 <;> simp [h2]
            simp [regInit, Option.guard, option_failure_eq_none, hA, hB, hD, hG2] at h
        · have hF2 : ¬ ∀ a ∈ qs, PySym.isStr a = true := by
            intro hc
            exact hF (List.all_eq_true.mpr hc)
          simp [regInit, Option.guard, option_failure_eq_none, hA, hB, hD, hF2] at h
  · simp [regInit, Option.guard, option_failure_eq_none, hA] at h

theorem applyOp_length {r : QuantumRegister} {g : GateM} {r2 : QuantumRegister}
    (h : applyOp r g = some r2) : r2.n = r.n ∧ r2.state.length = 2 ^ r2.n := by
  rw [applyOp] at h
  by_cases hs : g.rows = 2 ^ r.n ∧ g.cols = 2 ^ r.n
  · rw [if_pos hs] at h
    simp only [Option.some.injEq] at h
    rw [← h]
    refine ⟨rfl, ?_⟩
    simp [hs.1]
  · rw [if_neg hs] at h
    exact absurd h (by simp)

/-- C7: the register's state vector has length p = 2^n at construction and
after every operation: construction from qubits or basis symbols gives a
vector of length 2^n, and apply, h, r and o_f each return a register of
the same n whose state again has length 2^n. -/
theorem C7_state_length_invariant :
    (∀ qs r, regInit qs = some r → r.n = qs.length ∧ r.state.length = 2 ^ r.n)
    ∧ (∀ r g r2, applyOp r g = some r2 → r2.n = r.n ∧ r2.state.length = 2 ^ r2.n)
    ∧ (∀ r r2, hOp r = some r2 → r2.n = r.n ∧ r2.state.length = 2 ^ r2.n)
    ∧ (∀ r r2, rOp r = some r2 → r2.n = r.n ∧ r2.state.length = 2 ^ r2.n)
    ∧ (∀ r f r2, oOp r f = some r2 → r2.n = r.n ∧ r2.state.length = 2 ^ r2.n) := by
  refine ⟨fun qs r h => regInit_length h, fun r g r2 h => applyOp_length h,
    fun r r2 h => applyOp_length h, fun r r2 h => applyOp_length h, ?_⟩
  intro r f r2 h
  rw [oOp] at h
  cases ho : phase_oracle f with
  | none => rw [ho] at h; exact absurd h (by simp)
  | some g =>
    rw [ho] at h
    exact applyOp_length h

/-- Witness for C7 at a concrete register construction and Hadamard. -/
theorem C7_state_length_invariant_witness :
    (⟨1, oneHot 2 0⟩ : QuantumRegister).n = [PySym.qubit zeroQubit].length
    ∧ (⟨1, oneHot 2 0⟩ : QuantumRegister).state.length
        = 2 ^ (⟨1, oneHot 2 0⟩ : QuantumRegister).n :=
  C7_state_length_invariant.1 [PySym.qubit zeroQubit] ⟨1, oneHot 2 0⟩
    (regInit_zeros 1 (by norm_num))

/-! C10: the state stays real through every driver step. -/

/-- The imaginary part as an additive map. -/
def imAdd : Cplx →+ Q2 where
  toFun := Cplx.im
  map_zero' := rfl
  map_add' x y := rfl

theorem getD_im_zero {l : List Cplx} (h : ∀ z ∈ l, z.im = 0) (j : ℕ) :
    (l.getD j 0).im = 0 := by
  rw [List.getD_eq_getElem?_getD]
  cases hg : l[j]? with
  | none => rfl
  | some w =>
    have hw : w ∈ l := by
      have := List.getElem?_eq_some_iff.mp hg
      obtain ⟨hlt, hget⟩ := this
      rw [← hget]
      exact List.getElem_mem hlt
    simp only [Option.getD_some]
    exact h w hw

/-- C10: the initial register built from |0> qubits is real, and apply
keeps a real state real for an arbitrary (even complex) gate, because the
gate is coerced to float (its imaginary parts are discarded) before the
product.  Hence the state is real at every step of the three drivers and
the `real` accessor captures the full information of the state. -/
theorem C10_state_real_invariant :
    (∀ n r, regInit (List.replicate n (PySym.qubit zeroQubit)) = some r →
        ∀ z ∈ r.state, z.im = 0)
    ∧ (∀ r g r2, applyOp r g = some r2 → (∀ z ∈ r.state, z.im = 0) →
        ∀ z ∈ r2.state, z.im = 0) := by
  constructor
  · intro n r h
    cases n with
    | zero =>
      have he : regInit (List.replicate 0 (PySym.qubit zeroQubit)) = none := by decide
      rw [he] at h
      exact Option.noConfusion h
    | succ m =>
      rw [regInit_zeros (m + 1) (by omega)] at h
      simp only [Option.some.injEq] at h
      rw [← h]
      intro z hz
      simp only [oneHot, List.mem_map] at hz
      obtain ⟨i, _, rfl⟩ := hz
      split <;> rfl
  · intro r g r2 h hreal
    rw [applyOp] at h
    by_cases hs : g.rows = 2 ^ r.n ∧ g.cols = 2 ^ r.n
    · rw [if_pos hs] at h
      simp only [Option.some.injEq] at h
      rw [← h]
      intro z hz
      simp only [List.mem_map] at hz
      obtain ⟨i, _, rfl⟩ := hz
      rw [show ∀ w : Cplx, w.im = imAdd w from fun w => rfl, map_sum]
      apply Finset.sum_eq_zero
      intro j _
      show (Cplx.smulQ2 (g.entry i j).re (r.state.getD j 0)).im = 0
      rw [Cplx.smulQ2_im, getD_im_zero hreal, mul_zero]
    · rw [if_neg hs] at h
      exact absurd h (by simp)

/-- Witness for C10 on the one-qubit register and the all-ones float gate. -/
theorem C10_state_real_invariant_witness :
    ∀ z ∈ (⟨1, oneHot 2 0⟩ : QuantumRegister).state, z.im = 0 :=
  C10_state_real_invariant.1 1 ⟨1, oneHot 2 0⟩ (regInit_zeros 1 (by norm_num))

/-! C6: the Hadamard transform is self-inverse with entries of constant
magnitude. -/

/-- C6: for p = 2^n a power of two, H(p).H(p) has entry (i, j) equal to
the identity matrix entry, and every entry of H(p) squares to 1/p, i.e.
has magnitude 1/sqrt p. -/
theorem C6_hadamard_selfinverse_magnitude (n i j : ℕ) (hi : i < 2 ^ n) (hj : j < 2 ^ n) :
    (∑ k in Finset.range (2 ^ n), hadamard (2 ^ n) i k * hadamard (2 ^ n) k j)
      = (if i = j then 1 else 0)
    ∧ (hadamard (2 ^ n) i j) ^ 2 = Q2.ofRat (1 / 2 ^ n) := by
  constructor
  · have hstep : ∀ k, k < 2 ^ n →
        hadamard (2 ^ n) i k * hadamard (2 ^ n) k j
          = Q2.ofRat (1 / 2 ^ n) * sgn (i ^^^ j) k := by
      intro k hk
      rw [hadamard_formula n i k hi hk, hadamard_formula n k j hk hj,
        sgn_comm k j, ← sgn_mul i j k, ← SQRT1_2_pow_mul_self n]
      ring
    rw [Finset.sum_congr rfl fun k hk => hstep k (Finset.mem_range.mp hk),
      ← Finset.mul_sum, sum_sgn n (i ^^^ j) (Nat.xor_lt_two_pow hi hj)]
    by_cases hij : i = j
    · subst hij
      rw [if_pos (Nat.xor_self i), if_pos rfl, ← ofRat_mul]
      apply Q2.ext2 <;> simp
    · have : ¬ (i ^^^ j = 0) := fun hc => hij (Nat.xor_eq_zero.mp hc)
      rw [if_neg this, if_neg hij, mul_zero]
  · rw [hadamard_formula n i j hi hj]
    have hsq : sgn i j * sgn i j = 1 := by
      rw [sgn, ← pow_add]
      exact Even.neg_one_pow ⟨popcount (i &&& j), by ring⟩
    calc (SQRT1_2 ^ n * sgn i j) ^ 2
        = SQRT1_2 ^ n * SQRT1_2 ^ n * (sgn i j * sgn i j) := by ring
      _ = Q2.ofRat (1 / 2 ^ n) := by rw [hsq, SQRT1_2_pow_mul_self n, mul_one]

/-- Witness for C6 at p = 2, i = 0, j = 1. -/
theorem C6_hadamard_selfinverse_magnitude_witness :
    (∑ k in Finset.range (2 ^ 1), hadamard (2 ^ 1) 0 k * hadamard (2 ^ 1) k 1)
      = (if 0 = 1 then 1 else 0)
    ∧ (hadamard (2 ^ 1) 0 1) ^ 2 = Q2.ofRat (1 / 2 ^ 1) :=
  C6_hadamard_selfinverse_magnitude 1 0 1 (by norm_num) (by norm_num)

/-! C8: construction from basis symbols. -/

/-- The most-significant-bit-first value of a symbol list. -/
def symVal (qs : List PySym) : ℕ :=
  qs.foldl (fun a q =>
    2 * a + (if q = PySym.int 1 ∨ q = PySym.str "1" then 1 else 0)) 0

theorem regInit_eq_int (qs : List PySym) (hA : qs.length > 0)
    (hB : ¬ qs.all PySym.isQubit = true) (hD : qs.all PySym.isInt = true)
    (hE : qs.all (fun q => q = PySym.int 0 || q = PySym.int 1) = true) :
    regInit qs
      = some ⟨qs.length, oneHot (2 ^ qs.length) (bitsVal (qs.map PySym.intToStr))⟩ := by
  have hFb : (qs.map PySym.intToStr).all PySym.isStr = true :=
    List.all_eq_true.mpr fun a ha => by
      obtain ⟨q, hq, rfl⟩ := List.mem_map.mp ha
      exact intToStr_isStr hD q hq
  have hGb : ((qs.map PySym.intToStr).all
      fun q => q = PySym.str "0" || q = PySym.str "1") = true :=
    List.all_eq_true.mpr fun a ha => by
      obtain ⟨q, hq, rfl⟩ := List.mem_map.mp ha
      rcases intToStr_valid hE q hq with h2 | h2 <;> simp [h2]
  rw [regInit]
  simp only [Option.guard, hA, hB, hD, hE, if_true, if_false, Bool.false_eq_true, gt_iff_lt]
  simp only [show (guard True : Option Unit) = some () from guard_eq_some trivial,
    Option.pure_def, Bind.bind, Option.bind]
  rw [guard_eq_some hFb, guard_eq_some hGb,
    guard_eq_some (oneHot_length (2 ^ qs.length) (bitsVal (qs.map PySym.intToStr)))]

theorem regInit_eq_str (qs : List PySym) (hA : qs.length > 0)
    (hB : ¬ qs.all PySym.isQubit = true) (hD : ¬ qs.all PySym.isInt = true)
    (hF : qs.all PySym.isStr = true)
    (hG : qs.all (fun q => q = PySym.str "0" || q = PySym.str "1") = true) :
    regInit qs = some ⟨qs.length, oneHot (2 ^ qs.length) (bitsVal qs)⟩ := by
  rw [regInit]
  simp only [Option.guard, hA, hB, hD, if_true, if_false, Bool.false_eq_true, gt_iff_lt]
  simp only [show (guard True : Option Unit) = some () from guard_eq_some trivial,
    Option.pure_def, Bind.bind, Option.bind]
  rw [guard_eq_some hF, guard_eq_some hG,
    guard_eq_some (oneHot_length (2 ^ qs.length) (bitsVal qs))]

theorem bitsVal_map_intToStr (qs : List PySym)
    (hv : ∀ q ∈ qs, q = PySym.int 0 ∨ q = PySym.int 1) :
    bitsVal (qs.map PySym.intToStr) = symVal qs := by
  have hgen : ∀ (l : List PySym), (∀ q ∈ l, q = PySym.int 0 ∨ q = PySym.int 1) → ∀ a : ℕ,
      l.foldl (fun a q => 2 * a + (if PySym.intToStr q = PySym.str "1" then 1 else 0)) a
        = l.foldl (fun a q =>
            2 * a + (if q = PySym.int 1 ∨ q = PySym.str "1" then 1 else 0)) a := by
    intro l
    induction l with
    | nil => intro _ a; rfl
    | cons q rest ih =>
      intro hval a
      rw [List.foldl_cons, List.foldl_cons]
      have hq := hval q (List.mem_cons_self q rest)
      have hbit : (if PySym.intToStr q = PySym.str "1" then (1:ℕ) else 0)
          = (if q = PySym.int 1 ∨ q = PySym.str "1" then (1:ℕ) else 0) := by
        rcases hq with rfl | rfl <;> decide
      rw [hbit]
      exact ih (fun x hx => hval x (List.mem_cons_of_mem q hx)) _
  rw [bitsVal, symVal, List.foldl_map]
  exact hgen qs hv 0

theorem bitsVal_eq_symVal (qs : List PySym)
    (hv : ∀ q ∈ qs, q = PySym.str "0" ∨ q = PySym.str "1") :
    bitsVal qs = symVal qs := by
  have hgen : ∀ (l : List PySym), (∀ q ∈ l, q = PySym.str "0" ∨ q = PySym.str "1") →
      ∀ a : ℕ,
      l.foldl (fun a q => 2 * a + (if q = PySym.str "1" then 1 else 0)) a
        = l.foldl (fun a q =>
            2 * a + (if q = PySym.int 1 ∨ q = PySym.str "1" then 1 else 0)) a := by
    intro l
    induction l with
    | nil => intro _ a; rfl
    | cons q rest ih =>
      intro hval a
      rw [List.foldl_cons, List.foldl_cons]
      have hq := hval q (List.mem_cons_self q rest)
      have hbit : (if q = PySym.str "1" then (1:ℕ) else 0)
          = (if q = PySym.int 1 ∨ q = PySym.str "1" then (1:ℕ) else 0) := by
        rcases hq with rfl | rfl <;> decide
      rw [hbit]
      exact ih (fun x hx => hval x (List.mem_cons_of_mem q hx)) _
  rw [bitsVal, symVal]
  exact hgen qs hv 0

theorem regInit_int_invalid (qs : List PySym) (hA : qs.length > 0)
    (hB : ¬ qs.all PySym.isQubit = true) (hD : qs.all PySym.isInt = true)
    (hE : qs.all (fun q => q = PySym.int 0 || q = PySym.int 1) = false) :
    regInit qs = none := by
  rw [regInit]
  simp only [Option.guard, hA, hB, hD, hE, if_true, if_false, Bool.false_eq_true, gt_iff_lt]
  simp only [show (guard True : Option Unit) = some () from guard_eq_some trivial,
    show (guard False : Option Unit) = none from rfl,
    option_failure_eq_none, Option.pure_def, Bind.bind, Option.bind]

theorem regInit_str_missing (qs : List PySym) (hA : qs.length > 0)
    (hB : ¬ qs.all PySym.isQubit = true) (hD : ¬ qs.all PySym.isInt = true)
    (hF : qs.all PySym.isStr = false) :
    regInit qs = none := by
  rw [regInit]
  simp only [Option.guard, hA, hB, hD, hF, if_true, if_false, Bool.false_eq_true, gt_iff_lt]
  simp only [hF, Bool.false_eq_true,
    show (guard True : Option Unit) = some () from guard_eq_some trivial,
    show (guard False : Option Unit) = none from rfl,
    option_failure_eq_none, Option.pure_def, Bind.bind, Option.bind]

theorem regInit_str_invalid (qs : List PySym) (hA : qs.length > 0)
    (hB : ¬ qs.all PySym.isQubit = true) (hD : ¬ qs.all PySym.isInt = true)
    (hF : qs.all PySym.isStr = true)
    (hG : qs.all (fun q => q = PySym.str "0" || q = PySym.str "1") = false) :
    regInit qs = none := by
  rw [regInit]
  simp only [Option.guard, hA, hB, hD, hF, hG, if_true, if_false, Bool.false_eq_true,
    gt_iff_lt]
  simp only [hF, hG, Bool.false_eq_true,
    show (guard True : Option Unit) = some () from guard_eq_some trivial,
    show (guard False : Option Unit) = none from rfl,
    option_failure_eq_none, Option.pure_def, Bind.bind, Option.bind]

/-- Counterexample for C8 as stated: the mixed sequence [0, "1"] consists
of symbols that are each a valid 0/1 integer or "0"/"1" string, yet the
constructor fails (the all-strings assert sees the int), instead of
producing the one-hot vector at index 1. -/
theorem C8_register_counterexample :
    regInit [PySym.int 0, PySym.str "1"] = none := by
  decide

/-- C8 amended: the constructor built from basis symbols succeeds exactly
on nonempty homogeneous sequences - all integers in {0, 1} or all strings
in {"0", "1"} - and then yields the one-hot state at the index read most
significant bit first; it fails on the empty sequence, on any invalid
symbol, and on mixed integer/string sequences. -/
theorem C8_register_from_symbols_amended (qs : List PySym) :
    (regInit [] = none)
    ∧ (qs ≠ [] →
        ((∀ q ∈ qs, q = PySym.int 0 ∨ q = PySym.int 1) ∨
         (∀ q ∈ qs, q = PySym.str "0" ∨ q = PySym.str "1")) →
        regInit qs = some ⟨qs.length, oneHot (2 ^ qs.length) (symVal qs)⟩)
    ∧ (qs ≠ [] →
        (∀ q ∈ qs, PySym.isInt q = true ∨ PySym.isStr q = true) →
        ¬ (∀ q ∈ qs, q = PySym.int 0 ∨ q = PySym.int 1) →
        ¬ (∀ q ∈ qs, q = PySym.str "0" ∨ q = PySym.str "1") →
        regInit qs = none) := by
  refine ⟨by decide, ?_, ?_⟩
  · intro hne hv
    cases qs with
    | nil => exact absurd rfl hne
    | cons q0 rest =>
      have hA : (q0 :: rest).length > 0 := by simp
      rcases hv with hint | hstr
      · have hq0 := hint q0 (List.mem_cons_self q0 rest)
        have hB : ¬ (q0 :: rest).all PySym.isQubit = true := by
          intro hc
          have := List.all_eq_true.mp hc q0 (List.mem_cons_self q0 rest)
          rcases hq0 with rfl | rfl <;> simp [PySym.isQubit] at this
        have hD : (q0 :: rest).all PySym.isInt = true :=
          List.all_eq_true.mpr fun q hq => by
            rcases hint q hq with rfl | rfl <;> rfl
        have hE : (q0 :: rest).all (fun q => q = PySym.int 0 || q = PySym.int 1) = true :=
          List.all_eq_true.mpr fun q hq => by
            rcases hint q hq with rfl | rfl <;> simp
        rw [regInit_eq_int (q0 :: rest) hA hB hD hE,
          bitsVal_map_intToStr (q0 :: rest) hint]
      · have hq0 := hstr q0 (List.mem_cons_self q0 rest)
        have hB : ¬ (q0 :: rest).all PySym.isQubit = true := by
          intro hc
          have := List.all_eq_true.mp hc q0 (List.mem_cons_self q0 rest)
          rcases hq0 with rfl | rfl <;> simp [PySym.isQubit] at this
        have hD : ¬ (q0 :: rest).all PySym.isInt = true := by
          intro hc
          have := List.all_eq_true.mp hc q0 (List.mem_cons_self q0 rest)
          rcases hq0 with rfl | rfl <;> simp [PySym.isInt] at this
        have hF : (q0 :: rest).all PySym.isStr = true :=
          List.all_eq_true.mpr fun q hq => by
            rcases hstr q hq with rfl | rfl <;> rfl
        have hG : (q0 :: rest).all (fun q => q = PySym.str "0" || q = PySym.str "1")
            = true :=
          List.all_eq_true.mpr fun q hq => by
            rcases hstr q hq with rfl | rfl <;> simp
        rw [regInit_eq_str (q0 :: rest) hA hB hD hF hG,
          bitsVal_eq_symVal (q0 :: rest) hstr]
  · intro hne hsym hnint hnstr
    cases qs with
    | nil => exact absurd rfl hne
    | cons q0 rest =>
      have hA : (q0 :: rest).length > 0 := by simp
      have hq0 := hsym q0 (List.mem_cons_self q0 rest)
      have hB : ¬ (q0 :: rest).all PySym.isQubit = true := by
        intro hc
        have h2 := List.all_eq_true.mp hc q0 (List.mem_cons_self q0 rest)
        cases q0 with
        | int k => exact absurd h2 (by simp [PySym.isQubit])
        | str s => exact absurd h2 (by simp [PySym.isQubit])
        | qubit qb =>
          rcases hq0 with h3 | h3 <;> exact absurd h3 (by simp [PySym.isInt, PySym.isStr])
      by_cases hD : (q0 :: rest).all PySym.isInt = true
      · have hE : (q0 :: rest).all (fun q => q = PySym.int 0 || q = PySym.int 1)
            = false := by
          rw [Bool.eq_false_iff]
          intro hc
          apply hnint
          intro q hq
          have := List.all_eq_true.mp hc q hq
          simpa using this
        exact regInit_int_invalid (q0 :: rest) hA hB hD hE
      · by_cases hF : (q0 :: rest).all PySym.isStr = true
        · have hG : (q0 :: rest).all (fun q => q = PySym.str "0" || q = PySym.str "1")
              = false := by
            rw [Bool.eq_false_iff]
            intro hc
            apply hnstr
            intro q hq
            have := List.all_eq_true.mp hc q hq
            simpa using this
          exact regInit_str_invalid (q0 :: rest) hA hB hD hF hG
        · exact regInit_str_missing (q0 :: rest) hA hB hD (Bool.eq_false_iff.mpr hF)

/-- Witness for the amended C8: the all-int sequence [1, 0] produces the
one-hot state at index 2 of a 2-qubit register. -/
theorem C8_register_from_symbols_amended_witness :
    regInit [PySym.int 1, PySym.int 0] = some ⟨2, oneHot 4 2⟩ := by
  have h := (C8_register_from_symbols_amended [PySym.int 1, PySym.int 0]).2.1
    (by decide) (Or.inl (by decide))
  exact h

/-! C3: Bernstein-Vazirani. -/

/-- For the Bernstein-Vazirani oracle the sign of a table entry is the
character of the secret key. -/
theorem fsgn_bv (n sv : ℕ) (f : List ℤ)
    (hf : ∀ x, x < 2 ^ n → f.getD x 0 = ((popcount (sv &&& x) % 2 : ℕ) : ℤ)) :
    ∀ j, j < 2 ^ n → fsgn f j = sgn sv j := by
  intro j hj
  rw [fsgn, hf j hj, Int.toNat_natCast, q2_neg_one_pow_mod, sgn]

/-- On the Bernstein-Vazirani oracle the final state is the basis vector
at the secret key. -/
theorem bv_final_entry (n sv : ℕ) (hsv : sv < 2 ^ n) (f : List ℤ)
    (hfs : ∀ j, j < 2 ^ n → fsgn f j = sgn sv j) :
    ∀ i, i < 2 ^ n →
      Q2.ofRat (1 / 2 ^ n) * (∑ j in Finset.range (2 ^ n), sgn i j * fsgn f j)
        = if i = sv then 1 else 0 := by
  intro i hi
  rw [Finset.sum_congr rfl fun j hj => by
    rw [hfs j (Finset.mem_range.mp hj), sgn_mul i sv j]]
  rw [sum_sgn n (i ^^^ sv) (Nat.xor_lt_two_pow hi hsv)]
  by_cases hisv : i = sv
  · subst hisv
    rw [if_pos (Nat.xor_self i), if_pos rfl, ← ofRat_mul]
    apply Q2.ext2 <;> simp
  · have h2 : ¬ (i ^^^ sv = 0) := fun hc => hisv (Nat.xor_eq_zero.mp hc)
    rw [if_neg h2, if_neg hisv, mul_zero]

theorem validTable_of_getD (f : List ℤ)
    (h : ∀ i, i < f.length → f.getD i 0 = 0 ∨ f.getD i 0 = 1) :
    validTable f = true := by
  rw [validTable, List.all_eq_true]
  intro a ha
  obtain ⟨i, rfl⟩ := List.mem_iff_get.mp ha
  have hd : f.getD i.1 0 = f.get i := by
    rw [List.getD_eq_getElem?_getD, List.getElem?_eq_getElem i.2]
    rfl
  rcases h i.1 i.2 with h2 | h2 <;> rw [hd] at h2 <;>
    simp only [List.get_eq_getElem] at h2 <;> simp [h2]

/-- C3: for every n in {1,...,7} and every binary key s of length n,
running the Bernstein-Vazirani driver on the table encoding
f(x) = popcount(s AND x) mod 2 returns exactly s (the argmax of the final
real amplitudes, rendered big-endian). -/
theorem C3_bernstein_vazirani (n : ℕ) (s : List ℕ) (f : List ℤ) (v : ℕ)
    (hn1 : 1 ≤ n) (hn7 : n ≤ 7) (hs : s.length = n) (hbits : ∀ b ∈ s, b < 2)
    (hlen : f.length = 2 ^ n)
    (hf : ∀ x, x < 2 ^ n →
      f.getD x 0 = ((popcount (bitsToNat s &&& x) % 2 : ℕ) : ℤ)) :
    (bvRun f v).fst = some s := by
  have hsv : bitsToNat s < 2 ^ n := by
    rw [← hs]
    exact bitsToNat_lt s hbits
  have hval : validTable f = true := by
    apply validTable_of_getD
    intro i hi
    rw [hlen] at hi
    rw [hf i hi]
    rcases Nat.mod_two_eq_zero_or_one (popcount (bitsToNat s &&& i)) with h2 | h2 <;>
      rw [h2] <;> simp
  unfold bvRun
  rw [hlen, log2_two_pow n, phase_oracle_some hval]
  dsimp only
  rw [regInit_zeros n hn1]
  dsimp only
  rw [hOp_oneHot n _ rfl rfl]
  dsimp only
  rw [oracle_step n f hlen]
  dsimp only
  rw [hoh_final_state n f]
  dsimp only
  congr 1
  have hreal : (QuantumRegister.mk n (vecL (2 ^ n) fun i =>
      Cplx.ofQ2 (Q2.ofRat (1 / 2 ^ n) *
        ∑ j in Finset.range (2 ^ n), sgn i j * fsgn f j))).real
      = (List.range (2 ^ n)).map (fun i => if i = bitsToNat s then (1:Q2) else 0) := by
    rw [real_vecL]
    apply List.map_congr_left
    intro i hi
    simp only [Cplx.ofQ2_re]
    exact bv_final_entry n (bitsToNat s) hsv f (fsgn_bv n (bitsToNat s) f hf) i
      (List.mem_range.mp hi)
  rw [hreal]
  have hargmax : argmaxL ((List.range (2 ^ n)).map
      fun i => if i = bitsToNat s then (1:Q2) else 0) = bitsToNat s := by
    apply argmaxL_eq
    · rw [List.length_map, List.length_range]
      exact hsv
    · intro i hilen hine
      rw [List.length_map, List.length_range] at hilen
      rw [getD_range_map_q2 _ hilen, getD_range_map_q2 _ hsv,
        if_neg hine, if_pos rfl,
        show (0 : Q2) = Q2.ofRat 0 from rfl, show (1 : Q2) = Q2.ofRat 1 from rfl,
        Q2.blt_ofRat]
      norm_num
  rw [hargmax, ← hs, toBits_bitsToNat s hbits]

/-- Witness for C3 at n = 3, key s = [1, 0, 1]. -/
theorem C3_bernstein_vazirani_witness :
    (bvRun [0, 1, 0, 1, 1, 0, 1, 0] 0).fst = some [1, 0, 1] :=
  C3_bernstein_vazirani 3 [1, 0, 1] [0, 1, 0, 1, 1, 0, 1, 0] 0
    (by norm_num) (by norm_num) (by norm_num) (by decide) (by norm_num) (by decide)

/-! C2: Grover. -/

/-- One Grover iteration (oracle then diffusion) on the two amplitude
levels (marked, unmarked) of a symmetric state, p = 2 ^ n. -/
def groverXY (p : ℕ) (xy : Q2 × Q2) : Q2 × Q2 :=
  (Q2.ofRat (2 / (p : ℚ)) * (-xy.1 + Q2.ofRat ((p : ℚ) - 1) * xy.2) + xy.1,
   Q2.ofRat (2 / (p : ℚ)) * (-xy.1 + Q2.ofRat ((p : ℚ) - 1) * xy.2) - xy.2)

/-- The two amplitude levels after t Grover iterations, starting from the
uniform superposition. -/
def groverIter (n : ℕ) : ℕ → Q2 × Q2
  | 0 => (SQRT1_2 ^ n, SQRT1_2 ^ n)
  | t + 1 => groverXY (2 ^ n) (groverIter n t)

theorem q2_natCast (p : ℕ) : ((p : Q2)) = Q2.ofRat (p : ℚ) := by
  induction p with
  | zero => apply Q2.ext2 <;> simp
  | succ m ih =>
    rw [Nat.cast_succ, ih]
    apply Q2.ext2 <;> push_cast <;> simp

theorem sum_ite_q2 (p m : ℕ) (hm : m < p) (A B : Q2) :
    (∑ j in Finset.range p, if j = m then A else B)
      = A + Q2.ofRat ((p : ℚ) - 1) * B := by
  have h1 : ∀ j, (if j = m then A else B) = B + (if j = m then A - B else 0) := by
    intro j
    by_cases h : j = m <;> simp [h]
  rw [Finset.sum_congr rfl fun j _ => h1 j, Finset.sum_add_distrib, Finset.sum_const,
    Finset.sum_ite_eq' (Finset.range p) m (fun _ => A - B),
    if_pos (Finset.mem_range.mpr hm), Finset.card_range, nsmul_eq_mul, q2_natCast]
  have h2 : Q2.ofRat ((p:ℚ) - 1) = Q2.ofRat (p:ℚ) - 1 := by
    apply Q2.ext2 <;> simp
  rw [h2]
  ring

theorem groverK_eval (n k : ℕ) (h1 : (k : ℚ) ≤ npPi * sqrtPow2 n / 4)
    (h2 : npPi * sqrtPow2 n / 4 < k + 1) : groverK n = k := by
  rw [groverK]
  have hf : Int.floor (npPi * sqrtPow2 n / 4) = (k : ℤ) := by
    rw [Int.floor_eq_iff]
    constructor
    · exact_mod_cast h1
    · push_cast
      exact h2
  rw [hf]
  simp

theorem groverK_2 : groverK 2 = 1 :=
  groverK_eval 2 1 (by rw [npPi, sqrtPow2]; norm_num) (by rw [npPi, sqrtPow2]; norm_num)

theorem groverK_3 : groverK 3 = 2 :=
  groverK_eval 3 2 (by rw [npPi, sqrtPow2]; norm_num) (by rw [npPi, sqrtPow2]; norm_num)

theorem groverK_4 : groverK 4 = 3 :=
  groverK_eval 4 3 (by rw [npPi, sqrtPow2]; norm_num) (by rw [npPi, sqrtPow2]; norm_num)

theorem groverK_5 : groverK 5 = 4 :=
  groverK_eval 5 4 (by rw [npPi, sqrtPow2]; norm_num) (by rw [npPi, sqrtPow2]; norm_num)

theorem groverK_6 : groverK 6 = 6 :=
  groverK_eval 6 6 (by rw [npPi, sqrtPow2]; norm_num) (by rw [npPi, sqrtPow2]; norm_num)

theorem groverK_7 : groverK 7 = 8 :=
  groverK_eval 7 8 (by rw [npPi, sqrtPow2]; norm_num) (by rw [npPi, sqrtPow2]; norm_num)

theorem grover_oracle_step (n m : ℕ) (f : List ℤ) (hlen : f.length = 2 ^ n)
    (hfs : ∀ i, i < 2 ^ n → fsgn f i = if i = m then -1 else 1) (X Y : Q2) :
    applyOp ⟨n, vecL (2 ^ n) fun i => Cplx.ofQ2 (if i = m then X else Y)⟩
      ⟨f.length, f.length,
        fun i j => if i = j then Cplx.ofQ2 ((-1) ^ (f.getD i 0).toNat) else 0⟩
      = some ⟨n, vecL (2 ^ n) fun i => Cplx.ofQ2 (if i = m then -X else Y)⟩ := by
  rw [applyOp_diag _ _ (fun i => fsgn f i) _ rfl hlen hlen (phase_oracle_entry_re f)]
  congr 1
  congr 1
  apply vecL_congr
  intro i hi
  rw [smulQ2_ofQ2, hfs i hi]
  by_cases h : i = m <;> simp [h]

theorem grover_diffusion_step (n m : ℕ) (hm : m < 2 ^ n) (X Y : Q2) :
    rOp ⟨n, vecL (2 ^ n) fun i => Cplx.ofQ2 (if i = m then -X else Y)⟩
      = some ⟨n, vecL (2 ^ n) fun i =>
          Cplx.ofQ2 (if i = m then (groverXY (2 ^ n) (X, Y)).1
            else (groverXY (2 ^ n) (X, Y)).2)⟩ := by
  rw [rOp_vecL _ _ rfl]
  congr 1
  congr 1
  apply vecL_congr
  intro i hi
  have hsum : (∑ j in Finset.range (2 ^ n), Cplx.ofQ2 (if j = m then -X else Y))
      = Cplx.ofQ2 (-X + Q2.ofRat (((2 ^ n : ℕ) : ℚ) - 1) * Y) := by
    simp only [show ∀ x, Cplx.ofQ2 x = Cplx.q2Hom x from fun x => rfl]
    rw [← map_sum, sum_ite_q2 (2 ^ n) m hm (-X) Y]
  rw [hsum, smulQ2_ofQ2,
    show ∀ a b : Q2, Cplx.ofQ2 a - Cplx.ofQ2 b = Cplx.ofQ2 (a - b) from
      fun a b => (map_sub Cplx.q2Hom a b).symm]
  congr 1
  by_cases h : i = m
  · rw [if_pos h, if_pos h, groverXY]
    ring
  · rw [if_neg h, if_neg h, groverXY]

theorem grLoopAux_grover (n m : ℕ) (hm : m < 2 ^ n) (f : List ℤ)
    (hlen : f.length = 2 ^ n)
    (hfs : ∀ i, i < 2 ^ n → fsgn f i = if i = m then -1 else 1) (verbose : ℕ) :
    ∀ fuel t i0,
      (grLoopAux ⟨f.length, f.length,
          fun i j => if i = j then Cplx.ofQ2 ((-1) ^ (f.getD i 0).toNat) else 0⟩
        verbose fuel i0
        ⟨n, vecL (2 ^ n) fun i =>
          Cplx.ofQ2 (if i = m then (groverIter n t).1 else (groverIter n t).2)⟩).fst
      = some ⟨n, vecL (2 ^ n) fun i =>
          Cplx.ofQ2 (if i = m then (groverIter n (t + fuel)).1
            else (groverIter n (t + fuel)).2)⟩ := by
  intro fuel
  induction fuel with
  | zero => intro t i0; rfl
  | succ fuel ih =>
    intro t i0
    rw [grLoopAux]
    have hstep : (applyOp ⟨n, vecL (2 ^ n) fun i =>
          Cplx.ofQ2 (if i = m then (groverIter n t).1 else (groverIter n t).2)⟩
        ⟨f.length, f.length,
          fun i j => if i = j then Cplx.ofQ2 ((-1) ^ (f.getD i 0).toNat) else 0⟩).bind rOp
        = some ⟨n, vecL (2 ^ n) fun i =>
            Cplx.ofQ2 (if i = m then (groverIter n (t + 1)).1
              else (groverIter n (t + 1)).2)⟩ := by
      rw [grover_oracle_step n m f hlen hfs (groverIter n t).1 (groverIter n t).2,
        Option.some_bind,
        grover_diffusion_step n m hm (groverIter n t).1 (groverIter n t).2]
      rfl
    rw [hstep]
    dsimp only
    have harith : t + 1 + fuel = t + (fuel + 1) := by omega
    rw [ih (t + 1) (i0 + 1), harith]

theorem groverIter_zero (n : ℕ) : groverIter n 0 = (SQRT1_2 ^ n, SQRT1_2 ^ n) := rfl

theorem groverIter_succ (n t : ℕ) :
    groverIter n (t + 1) = groverXY (2 ^ n) (groverIter n t) := rfl

theorem grover_cmp_2 :
    Q2.blt ((groverIter 2 (groverK 2)).2 * (groverIter 2 (groverK 2)).2)
      ((groverIter 2 (groverK 2)).1 * (groverIter 2 (groverK 2)).1) = true := by
  have hs : SQRT1_2 ^ 2 = Q2.mk (1 / 2 : ℚ) 0 := by
    apply Q2.ext2 <;> simp [SQRT1_2, pow_succ, pow_zero] <;> norm_num
  have h0 : groverIter 2 0 = (Q2.mk (1 / 2 : ℚ) 0, Q2.mk (1 / 2 : ℚ) 0) := by
    rw [groverIter_zero, hs]
  have h1 : groverIter 2 1 = (Q2.mk 1 0, Q2.mk 0 0) := by
    rw [show (1 : ℕ) = 0 + 1 from rfl, groverIter_succ, h0]
    unfold groverXY
    rw [Prod.mk.injEq]
    constructor <;> (apply Q2.ext2 <;> simp <;> norm_num)
  have hx2 : Q2.mk 1 0 * Q2.mk 1 0 = Q2.ofRat (1) := by
    apply Q2.ext2 <;> simp [Q2.ofRat] <;> norm_num
  have hy2 : Q2.mk 0 0 * Q2.mk 0 0 = Q2.ofRat (0) := by
    apply Q2.ext2 <;> simp [Q2.ofRat] <;> norm_num
  rw [groverK_2, h1]
  dsimp only
  rw [hy2, hx2, Q2.blt_ofRat]
  simp only [decide_eq_true_eq]
  norm_num

theorem grover_cmp_3 :
    Q2.blt ((groverIter 3 (groverK 3)).2 * (groverIter 3 (groverK 3)).2)
      ((groverIter 3 (groverK 3)).1 * (groverIter 3 (groverK 3)).1) = true := by
  have hs : SQRT1_2 ^ 3 = Q2.mk 0 (1 / 4 : ℚ) := by
    apply Q2.ext2 <;> simp [SQRT1_2, pow_succ, pow_zero] <;> norm_num
  have h0 : groverIter 3 0 = (Q2.mk 0 (1 / 4 : ℚ), Q2.mk 0 (1 / 4 : ℚ)) := by
    rw [groverIter_zero, hs]
  have h1 : groverIter 3 1 = (Q2.mk 0 (5 / 8 : ℚ), Q2.mk 0 (1 / 8 : ℚ)) := by
    rw [show (1 : ℕ) = 0 + 1 from rfl, groverIter_succ, h0]
    unfold groverXY
    rw [Prod.mk.injEq]
    constructor <;> (apply Q2.ext2 <;> simp <;> norm_num)
  have h2 : groverIter 3 2 = (Q2.mk 0 (11 / 16 : ℚ), Q2.mk 0 ((-1) / 16 : ℚ)) := by
    rw [show (2 : ℕ) = 1 + 1 from rfl, groverIter_succ, h1]
    unfold groverXY
    rw [Prod.mk.injEq]
    constructor <;> (apply Q2.ext2 <;> simp <;> norm_num)
  have hx2 : Q2.mk 0 (11 / 16 : ℚ) * Q2.mk 0 (11 / 16 : ℚ) = Q2.ofRat ((121 / 128 : ℚ)) := by
    apply Q2.ext2 <;> simp [Q2.ofRat] <;> norm_num
  have hy2 : Q2.mk 0 ((-1) / 16 : ℚ) * Q2.mk 0 ((-1) / 16 : ℚ) = Q2.ofRat ((1 / 128 : ℚ)) := by
    apply Q2.ext2 <;> simp [Q2.ofRat] <;> norm_num
  rw [groverK_3, h2]
  dsimp only
  rw [hy2, hx2, Q2.blt_ofRat]
  simp only [decide_eq_true_eq]
  norm_num

theorem grover_cmp_4 :
    Q2.blt ((groverIter 4 (groverK 4)).2 * (groverIter 4 (groverK 4)).2)
      ((groverIter 4 (groverK 4)).1 * (groverIter 4 (groverK 4)).1) = true := by
  have hs : SQRT1_2 ^ 4 = Q2.mk (1 / 4 : ℚ) 0 := by
    apply Q2.ext2 <;> simp [SQRT1_2, pow_succ, pow_zero] <;> norm_num
  have h0 : groverIter 4 0 = (Q2.mk (1 / 4 : ℚ) 0, Q2.mk (1 / 4 : ℚ) 0) := by
    rw [groverIter_zero, hs]
  have h1 : groverIter 4 1 = (Q2.mk (11 / 16 : ℚ) 0, Q2.mk (3 / 16 : ℚ) 0) := by
    rw [show (1 : ℕ) = 0 + 1 from rfl, groverIter_succ, h0]
    unfold groverXY
    rw [Prod.mk.injEq]
    constructor <;> (apply Q2.ext2 <;> simp <;> norm_num)
  have h2 : groverIter 4 2 = (Q2.mk (61 / 64 : ℚ) 0, Q2.mk (5 / 64 : ℚ) 0) := by
    rw [show (2 : ℕ) = 1 + 1 from rfl, groverIter_succ, h1]
    unfold groverXY
    rw [Prod.mk.injEq]
    constructor <;> (apply Q2.ext2 <;> simp <;> norm_num)
  have h3 : groverIter 4 3 = (Q2.mk (251 / 256 : ℚ) 0, Q2.mk ((-13) / 256 : ℚ) 0) := by
    rw [show (3 : ℕ) = 2 + 1 from rfl, groverIter_succ, h2]
    unfold groverXY
    rw [Prod.mk.injEq]
    constructor <;> (apply Q2.ext2 <;> simp <;> norm_num)
  have hx2 : Q2.mk (251 / 256 : ℚ) 0 * Q2.mk (251 / 256 : ℚ) 0 = Q2.ofRat ((63001 / 65536 : ℚ)) := by
    apply Q2.ext2 <;> simp [Q2.ofRat] <;> norm_num
  have hy2 : Q2.mk ((-13) / 256 : ℚ) 0 * Q2.mk ((-13) / 256 : ℚ) 0 = Q2.ofRat ((169 / 65536 : ℚ)) := by
    apply Q2.ext2 <;> simp [Q2.ofRat] <;> norm_num
  rw [groverK_4, h3]
  dsimp only
  rw [hy2, hx2, Q2.blt_ofRat]
  simp only [decide_eq_true_eq]
  norm_num

theorem grover_cmp_5 :
    Q2.blt ((groverIter 5 (groverK 5)).2 * (groverIter 5 (groverK 5)).2)
      ((groverIter 5 (groverK 5)).1 * (groverIter 5 (groverK 5)).1) = true := by
  have hs : SQRT1_2 ^ 5 = Q2.mk 0 (1 / 8 : ℚ) := by
    apply Q2.ext2 <;> simp [SQRT1_2, pow_succ, pow_zero] <;> norm_num
  have h0 : groverIter 5 0 = (Q2.mk 0 (1 / 8 : ℚ), Q2.mk 0 (1 / 8 : ℚ)) := by
    rw [groverIter_zero, hs]
  have h1 : groverIter 5 1 = (Q2.mk 0 (23 / 64 : ℚ), Q2.mk 0 (7 / 64 : ℚ)) := by
    rw [show (1 : ℕ) = 0 + 1 from rfl, groverIter_succ, h0]
    unfold groverXY
    rw [Prod.mk.injEq]
    constructor <;> (apply Q2.ext2 <;> simp <;> norm_num)
  have h2 : groverIter 5 2 = (Q2.mk 0 (281 / 512 : ℚ), Q2.mk 0 (41 / 512 : ℚ)) := by
    rw [show (2 : ℕ) = 1 + 1 from rfl, groverIter_succ, h1]
    unfold groverXY
    rw [Prod.mk.injEq]
    constructor <;> (apply Q2.ext2 <;> simp <;> norm_num)
  have h3 : groverIter 5 3 = (Q2.mk 0 (2743 / 4096 : ℚ), Q2.mk 0 (167 / 4096 : ℚ)) := by
    rw [show (3 : ℕ) = 2 + 1 from rfl, groverIter_succ, h2]
    unfold groverXY
    rw [Prod.mk.injEq]
    constructor <;> (apply Q2.ext2 <;> simp <;> norm_num)
  have h4 : groverIter 5 4 = (Q2.mk 0 (23161 / 32768 : ℚ), Q2.mk 0 ((-119) / 32768 : ℚ)) := by
    rw [show (4 : ℕ) = 3 + 1 from rfl, groverIter_succ, h3]
    unfold groverXY
    rw [Prod.mk.injEq]
    constructor <;> (apply Q2.ext2 <;> simp <;> norm_num)
  have hx2 : Q2.mk 0 (23161 / 32768 : ℚ) * Q2.mk 0 (23161 / 32768 : ℚ) = Q2.ofRat ((536431921 / 536870912 : ℚ)) := by
    apply Q2.ext2 <;> simp [Q2.ofRat] <;> norm_num
  have hy2 : Q2.mk 0 ((-119) / 32768 : ℚ) * Q2.mk 0 ((-119) / 32768 : ℚ) = Q2.ofRat ((14161 / 536870912 : ℚ)) := by
    apply Q2.ext2 <;> simp [Q2.ofRat] <;> norm_num
  rw [groverK_5, h4]
  dsimp only
  rw [hy2, hx2, Q2.blt_ofRat]
  simp only [decide_eq_true_eq]
  norm_num

theorem grover_cmp_6 :
    Q2.blt ((groverIter 6 (groverK 6)).2 * (groverIter 6 (groverK 6)).2)
      ((groverIter 6 (groverK 6)).1 * (groverIter 6 (groverK 6)).1) = true := by
  have hs : SQRT1_2 ^ 6 = Q2.mk (1 / 8 : ℚ) 0 := by
    apply Q2.ext2 <;> simp [SQRT1_2, pow_succ, pow_zero] <;> norm_num
  have h0 : groverIter 6 0 = (Q2.mk (1 / 8 : ℚ) 0, Q2.mk (1 / 8 : ℚ) 0) := by
    rw [groverIter_zero, hs]
  have h1 : groverIter 6 1 = (Q2.mk (47 / 128 : ℚ) 0, Q2.mk (15 / 128 : ℚ) 0) := by
    rw [show (1 : ℕ) = 0 + 1 from rfl, groverIter_succ, h0]
    unfold groverXY
    rw [Prod.mk.injEq]
    constructor <;> (apply Q2.ext2 <;> simp <;> norm_num)
  have h2 : groverIter 6 2 = (Q2.mk (1201 / 2048 : ℚ) 0, Q2.mk (209 / 2048 : ℚ) 0) := by
    rw [show (2 : ℕ) = 1 + 1 from rfl, groverIter_succ, h1]
    unfold groverXY
    rw [Prod.mk.injEq]
    constructor <;> (apply Q2.ext2 <;> simp <;> norm_num)
  have h3 : groverIter 6 3 = (Q2.mk (25199 / 32768 : ℚ) 0, Q2.mk (2639 / 32768 : ℚ) 0) := by
    rw [show (3 : ℕ) = 2 + 1 from rfl, groverIter_succ, h2]
    unfold groverXY
    rw [Prod.mk.injEq]
    constructor <;> (apply Q2.ext2 <;> simp <;> norm_num)
  have h4 : groverIter 6 4 = (Q2.mk (473713 / 524288 : ℚ) 0, Q2.mk (28305 / 524288 : ℚ) 0) := by
    rw [show (4 : ℕ) = 3 + 1 from rfl, groverIter_succ, h3]
    unfold groverXY
    rw [Prod.mk.injEq]
    constructor <;> (apply Q2.ext2 <;> simp <;> norm_num)
  have h5 : groverIter 6 5 = (Q2.mk (8234159 / 8388608 : ℚ) 0, Q2.mk (201871 / 8388608 : ℚ) 0) := by
    rw [show (5 : ℕ) = 4 + 1 from rfl, groverIter_succ, h4]
    unfold groverXY
    rw [Prod.mk.injEq]
    constructor <;> (apply Q2.ext2 <;> simp <;> norm_num)
  have h6 : groverIter 6 6 = (Q2.mk (133988401 / 134217728 : ℚ) 0, Q2.mk ((-988079) / 134217728 : ℚ) 0) := by
    rw [show (6 : ℕ) = 5 + 1 from rfl, groverIter_succ, h5]
    unfold groverXY
    rw [Prod.mk.injEq]
    constructor <;> (apply Q2.ext2 <;> simp <;> norm_num)
  have hx2 : Q2.mk (133988401 / 134217728 : ℚ) 0 * Q2.mk (133988401 / 134217728 : ℚ) 0 = Q2.ofRat ((17952891602536801 / 18014398509481984 : ℚ)) := by
    apply Q2.ext2 <;> simp [Q2.ofRat] <;> norm_num
  have hy2 : Q2.mk ((-988079) / 134217728 : ℚ) 0 * Q2.mk ((-988079) / 134217728 : ℚ) 0 = Q2.ofRat ((976300110241 / 18014398509481984 : ℚ)) := by
    apply Q2.ext2 <;> simp [Q2.ofRat] <;> norm_num
  rw [groverK_6, h6]
  dsimp only
  rw [hy2, hx2, Q2.blt_ofRat]
  simp only [decide_eq_true_eq]
  norm_num

theorem grover_cmp_7 :
    Q2.blt ((groverIter 7 (groverK 7)).2 * (groverIter 7 (groverK 7)).2)
      ((groverIter 7 (groverK 7)).1 * (groverIter 7 (groverK 7)).1) = true := by
  have hs : SQRT1_2 ^ 7 = Q2.mk 0 (1 / 16 : ℚ) := by
    apply Q2.ext2 <;> simp [SQRT1_2, pow_succ, pow_zero] <;> norm_num
  have h0 : groverIter 7 0 = (Q2.mk 0 (1 / 16 : ℚ), Q2.mk 0 (1 / 16 : ℚ)) := by
    rw [groverIter_zero, hs]
  have h1 : groverIter 7 1 = (Q2.mk 0 (95 / 512 : ℚ), Q2.mk 0 (31 / 512 : ℚ)) := by
    rw [show (1 : ℕ) = 0 + 1 from rfl, groverIter_succ, h0]
    unfold groverXY
    rw [Prod.mk.injEq]
    constructor <;> (apply Q2.ext2 <;> simp <;> norm_num)
  have h2 : groverIter 7 2 = (Q2.mk 0 (4961 / 16384 : ℚ), Q2.mk 0 (929 / 16384 : ℚ)) := by
    rw [show (2 : ℕ) = 1 + 1 from rfl, groverIter_succ, h1]
    unfold groverXY
    rw [Prod.mk.injEq]
    constructor <;> (apply Q2.ext2 <;> simp <;> norm_num)
  have h3 : groverIter 7 3 = (Q2.mk 0 (215263 / 524288 : ℚ), Q2.mk 0 (26783 / 524288 : ℚ)) := by
    rw [show (3 : ℕ) = 2 + 1 from rfl, groverIter_succ, h2]
    unfold groverXY
    rw [Prod.mk.injEq]
    constructor <;> (apply Q2.ext2 <;> simp <;> norm_num)
  have h4 : groverIter 7 4 = (Q2.mk 0 (8481505 / 16777216 : ℚ), Q2.mk 0 (736033 / 16777216 : ℚ)) := by
    rw [show (4 : ℕ) = 3 + 1 from rfl, groverIter_succ, h3]
    unfold groverXY
    rw [Prod.mk.injEq]
    constructor <;> (apply Q2.ext2 <;> simp <;> norm_num)
  have h5 : groverIter 7 5 = (Q2.mk 0 (313905503 / 536870912 : ℚ), Q2.mk 0 (18944287 / 536870912 : ℚ)) := by
    rw [show (5 : ℕ) = 4 + 1 from rfl, groverIter_succ, h4]
    unfold groverXY
    rw [Prod.mk.injEq]
    constructor <;> (apply Q2.ext2 <;> simp <;> norm_num)
  have h6 : groverIter 7 6 = (Q2.mk 0 (11090985569 / 17179869184 : ℚ), Q2.mk 0 (439792289 / 17179869184 : ℚ)) := by
    rw [show (6 : ℕ) = 5 + 1 from rfl, groverIter_succ, h5]
    unfold groverXY
    rw [Prod.mk.injEq]
    constructor <;> (apply Q2.ext2 <;> simp <;> norm_num)
  have h7 : groverIter 7 7 = (Q2.mk 0 (377292855775 / 549755813888 : ℚ), Q2.mk 0 (8307964319 / 549755813888 : ℚ)) := by
    rw [show (7 : ℕ) = 6 + 1 from rfl, groverIter_succ, h6]
    unfold groverXY
    rw [Prod.mk.injEq]
    constructor <;> (apply Q2.ext2 <;> simp <;> norm_num)
  have h8 : groverIter 7 8 = (Q2.mk 0 (12412280691169 / 17592186044416 : ℚ), Q2.mk 0 (73054448161 / 17592186044416 : ℚ)) := by
    rw [show (8 : ℕ) = 7 + 1 from rfl, groverIter_succ, h7]
    unfold groverXY
    rw [Prod.mk.injEq]
    constructor <;> (apply Q2.ext2 <;> simp <;> norm_num)
  have hx2 : Q2.mk 0 (12412280691169 / 17592186044416 : ℚ) * Q2.mk 0 (12412280691169 / 17592186044416 : ℚ) = Q2.ofRat ((154064711956366788354586561 / 154742504910672534362390528 : ℚ)) := by
    apply Q2.ext2 <;> simp [Q2.ofRat] <;> norm_num
  have hy2 : Q2.mk 0 (73054448161 / 17592186044416 : ℚ) * Q2.mk 0 (73054448161 / 17592186044416 : ℚ) = Q2.ofRat ((5336952396108236281921 / 154742504910672534362390528 : ℚ)) := by
    apply Q2.ext2 <;> simp [Q2.ofRat] <;> norm_num
  rw [groverK_7, h8]
  dsimp only
  rw [hy2, hx2, Q2.blt_ofRat]
  simp only [decide_eq_true_eq]
  norm_num

theorem groverRun_fst (n m : ℕ) (hn : 0 < n) (hm : m < 2 ^ n) (f : List ℤ)
    (hlen : f.length = 2 ^ n) (hval : validTable f = true)
    (hfs : ∀ i, i < 2 ^ n → fsgn f i = if i = m then -1 else 1) (v : ℕ)
    (hcmp : Q2.blt ((groverIter n (groverK n)).2 * (groverIter n (groverK n)).2)
      ((groverIter n (groverK n)).1 * (groverIter n (groverK n)).1) = true) :
    (groverRun f v).fst = some (toBits n m) := by
  have huni : (QuantumRegister.mk n (vecL (2 ^ n) fun _ => Cplx.ofQ2 (SQRT1_2 ^ n)))
      = ⟨n, vecL (2 ^ n) fun i =>
          Cplx.ofQ2 (if i = m then (groverIter n 0).1 else (groverIter n 0).2)⟩ := by
    congr 1
    apply vecL_congr
    intro i _
    by_cases h : i = m
    · rw [if_pos h, groverIter_zero]
    · rw [if_neg h, groverIter_zero]
  have hloop := grLoopAux_grover n m hm f hlen hfs v (groverK n) 0 0
  rw [Nat.zero_add] at hloop
  unfold groverRun
  rw [hlen, log2_two_pow n, phase_oracle_some hval]
  dsimp only
  rw [regInit_zeros n hn]
  dsimp only
  rw [hOp_oneHot n _ rfl rfl]
  dsimp only
  rw [huni]
  have hpair : grLoopAux
      ⟨f.length, f.length,
        fun i j => if i = j then Cplx.ofQ2 ((-1) ^ (f.getD i 0).toNat) else 0⟩
      v (groverK n) 0
      ⟨n, vecL (2 ^ n) fun i =>
        Cplx.ofQ2 (if i = m then (groverIter n 0).1 else (groverIter n 0).2)⟩
      = (some ⟨n, vecL (2 ^ n) fun i =>
            Cplx.ofQ2 (if i = m then (groverIter n (groverK n)).1
              else (groverIter n (groverK n)).2)⟩,
          (grLoopAux
            ⟨f.length, f.length,
              fun i j => if i = j then Cplx.ofQ2 ((-1) ^ (f.getD i 0).toNat) else 0⟩
            v (groverK n) 0
            ⟨n, vecL (2 ^ n) fun i =>
              Cplx.ofQ2 (if i = m then (groverIter n 0).1
                else (groverIter n 0).2)⟩).snd) := by
    rw [← hloop]
  rw [hpair]
  dsimp only
  congr 1
  have hreal : (QuantumRegister.mk n (vecL (2 ^ n) fun i =>
      Cplx.ofQ2 (if i = m then (groverIter n (groverK n)).1
        else (groverIter n (groverK n)).2))).real.map (fun x => x * x)
      = (List.range (2 ^ n)).map fun i =>
          if i = m then (groverIter n (groverK n)).1 * (groverIter n (groverK n)).1
          else (groverIter n (groverK n)).2 * (groverIter n (groverK n)).2 := by
    rw [real_vecL, List.map_map]
    apply List.map_congr_left
    intro i _
    simp only [Function.comp, Cplx.ofQ2_re]
    by_cases h : i = m
    · rw [if_pos h, if_pos h]
    · rw [if_neg h, if_neg h]
  rw [hreal]
  have hargmax : argmaxL ((List.range (2 ^ n)).map fun i =>
      if i = m then (groverIter n (groverK n)).1 * (groverIter n (groverK n)).1
      else (groverIter n (groverK n)).2 * (groverIter n (groverK n)).2) = m := by
    apply argmaxL_eq
    · rw [List.length_map, List.length_range]
      exact hm
    · intro i hilen hine
      rw [List.length_map, List.length_range] at hilen
      rw [getD_range_map_q2 _ hilen, getD_range_map_q2 _ hm, if_neg hine, if_pos rfl]
      exact hcmp
  rw [hargmax]

/-- C2: for every n in {2,...,7} and every truth table f of length 2^n
containing exactly one 1 (at marked index m), the Grover driver - Hadamard
once, then exactly k = floor(pi * sqrt(2^n) / 4) oracle-plus-diffusion
rounds - returns the n-bit big-endian binary representation of m, the
basis index of maximum squared real amplitude. -/
theorem C2_grover (n m : ℕ) (f : List ℤ) (v : ℕ)
    (hn2 : 2 ≤ n) (hn7 : n ≤ 7) (hm : m < 2 ^ n) (hlen : f.length = 2 ^ n)
    (hf : ∀ i, i < 2 ^ n → f.getD i 0 = if i = m then 1 else 0) :
    (groverRun f v).fst = some (toBits n m) := by
  have hval : validTable f = true := by
    apply validTable_of_getD
    intro i hi
    rw [hlen] at hi
    rw [hf i hi]
    by_cases h : i = m <;> simp [h]
  have hfs : ∀ i, i < 2 ^ n → fsgn f i = if i = m then -1 else 1 := by
    intro i hi
    rw [fsgn, hf i hi]
    by_cases h : i = m
    · rw [if_pos h, if_pos h]
      simp
    · rw [if_neg h, if_neg h]
      simp
  apply groverRun_fst n m (by omega) hm f hlen hval hfs v
  interval_cases n
  · exact grover_cmp_2
  · exact grover_cmp_3
  · exact grover_cmp_4
  · exact grover_cmp_5
  · exact grover_cmp_6
  · exact grover_cmp_7

/-- Witness for C2: n = 2, marked index 3, table [0,0,0,1]; the driver
returns [1, 1]. -/
theorem C2_grover_witness : (groverRun [0, 0, 0, 1] 0).fst = some [1, 1] :=
  C2_grover 2 3 [0, 0, 0, 1] 0 (by norm_num) (by norm_num) (by norm_num)
    (by norm_num) (by decide)
